import Mathlib

/-
  Verification of the FretForge Audio Analysis & Timing Core.

  Shallow embedding of:
  - src/client/src/data/chords.js        : NOTE_NAMES, noteFrequency, frequencyToNote,
                                           STANDARD_TUNING
  - src/client/src/components/chords/FretboardDiagram.jsx (TuningMeter doc) : tuningStatus
  - src/client/src/components/audio/StringDisplay.jsx : nearestString
  - src/client/src/pages/TunerPage.jsx   : note smoothing effect (hold buffer)
  - src/unnamed/part_006                 : usePitch.detectPitch, useMetronome

  JavaScript numbers are modelled as an inductive type JSNum: a finite real, one of
  the two infinities, or NaN.  The arithmetic operations below follow the ECMAScript
  semantics on those cases (the sign of zero is not modelled; it is irrelevant to
  every function embedded here).
-/

namespace FretForge

/-- A JavaScript number: a finite real, +Infinity, -Infinity, or NaN. -/
inductive JSNum where
  | num (x : ℝ)
  | posInf
  | negInf
  | nan

namespace JSNum

/-- JS addition. NaN propagates; Infinity - Infinity situations give NaN. -/
noncomputable def jsAdd : JSNum → JSNum → JSNum
  | nan, _ => nan
  | _, nan => nan
  | num a, num b => num (a + b)
  | num _, posInf => posInf
  | num _, negInf => negInf
  | posInf, num _ => posInf
  | negInf, num _ => negInf
  | posInf, posInf => posInf
  | negInf, negInf => negInf
  | posInf, negInf => nan
  | negInf, posInf => nan

/-- JS subtraction. NaN propagates; Infinity - Infinity = NaN. -/
noncomputable def jsSub : JSNum → JSNum → JSNum
  | nan, _ => nan
  | _, nan => nan
  | num a, num b => num (a - b)
  | num _, posInf => negInf
  | num _, negInf => posInf
  | posInf, num _ => posInf
  | negInf, num _ => negInf
  | posInf, posInf => nan
  | negInf, negInf => nan
  | posInf, negInf => posInf
  | negInf, posInf => negInf

/-- JS multiplication. NaN propagates; 0 * Infinity = NaN. -/
noncomputable def jsMul : JSNum → JSNum → JSNum
  | nan, _ => nan
  | _, nan => nan
  | num a, num b => num (a * b)
  | num a, posInf => if 0 < a then posInf else if a < 0 then negInf else nan
  | num a, negInf => if 0 < a then negInf else if a < 0 then posInf else nan
  | posInf, num b => if 0 < b then posInf else if b < 0 then negInf else nan
  | negInf, num b => if 0 < b then negInf else if b < 0 then posInf else nan
  | posInf, posInf => posInf
  | negInf, negInf => posInf
  | posInf, negInf => negInf
  | negInf, posInf => negInf

/-- JS division. Finite / 0 gives a signed infinity (or NaN for 0/0);
Infinity / finite keeps or flips the sign; finite / Infinity = 0;
Infinity / Infinity = NaN; NaN propagates. -/
noncomputable def jsDiv : JSNum → JSNum → JSNum
  | nan, _ => nan
  | _, nan => nan
  | num a, num b =>
      if b = 0 then (if 0 < a then posInf else if a < 0 then negInf else nan)
      else num (a / b)
  | num _, posInf => num 0
  | num _, negInf => num 0
  | posInf, num b => if 0 ≤ b then posInf else negInf
  | negInf, num b => if 0 ≤ b then negInf else posInf
  | posInf, posInf => nan
  | posInf, negInf => nan
  | negInf, posInf => nan
  | negInf, negInf => nan

/-- Math.round: round half toward +Infinity on finite input (this is round x =
floor (x + 1/2), which is Mathlib round); infinities and NaN pass through. -/
noncomputable def jsRound : JSNum → JSNum
  | num x => num ((round x : ℤ) : ℝ)
  | posInf => posInf
  | negInf => negInf
  | nan => nan

/-- Math.floor: floor on finite input; infinities and NaN pass through. -/
noncomputable def jsFloor : JSNum → JSNum
  | num x => num ((⌊x⌋ : ℤ) : ℝ)
  | posInf => posInf
  | negInf => negInf
  | nan => nan

/-- Truncation toward zero of a real, as an integer (the quotient used by the
JS remainder operator). -/
noncomputable def truncToZero (x : ℝ) : ℤ :=
  if 0 ≤ x then ⌊x⌋ else ⌈x⌉

/-- JS remainder a % b: a - b * trunc (a / b) on finite operands with b nonzero;
x % 0 = NaN; Infinity % b = NaN; finite % Infinity = the dividend; NaN propagates. -/
noncomputable def jsMod : JSNum → JSNum → JSNum
  | nan, _ => nan
  | _, nan => nan
  | num a, num b => if b = 0 then nan else num (a - b * (truncToZero (a / b) : ℝ))
  | num a, posInf => num a
  | num a, negInf => num a
  | posInf, _ => nan
  | negInf, _ => nan

/-- Math.log2: real base-2 logarithm for positive finite input, -Infinity at 0,
NaN for negative input and NaN, +Infinity at +Infinity. -/
noncomputable def jsLog2 : JSNum → JSNum
  | num x => if 0 < x then num (Real.logb 2 x) else if x = 0 then negInf else nan
  | posInf => posInf
  | negInf => nan
  | nan => nan

/-- Math.log10 applied to a real argument (the RMS computed by the pitch
detector is a genuine real): base-10 logarithm for positive input, -Infinity
at 0, NaN for negative input. -/
noncomputable def jsLog10R (x : ℝ) : JSNum :=
  if 0 < x then num (Real.logb 10 x) else if x = 0 then negInf else nan

/-- JS comparison a < b as a boolean: false whenever either side is NaN. -/
noncomputable def jsLtB : JSNum → JSNum → Bool
  | nan, _ => false
  | _, nan => false
  | num a, num b => decide (a < b)
  | num _, posInf => true
  | num _, negInf => false
  | posInf, num _ => false
  | negInf, num _ => true
  | posInf, posInf => false
  | negInf, negInf => false
  | negInf, posInf => true
  | posInf, negInf => false

/-- JS comparison a > b as a boolean: false whenever either side is NaN. -/
noncomputable def jsGtB (a b : JSNum) : Bool := jsLtB b a

end JSNum

open JSNum

/-- A JavaScript value that may be handed to frequencyToNote: a number, null,
or undefined. -/
inductive JSVal where
  | jnum (v : JSNum)
  | jnull
  | jundef

namespace JSVal

/-- JS truthiness: 0, NaN, null and undefined are falsy; every other number
(including the infinities) is truthy. -/
def jsTruthy : JSVal → Prop
  | jnum (num x) => x ≠ 0
  | jnum posInf => True
  | jnum negInf => True
  | jnum nan => False
  | jnull => False
  | jundef => False

/-- ToNumber coercion: null coerces to 0, undefined to NaN. -/
def toNumber : JSVal → JSNum
  | jnum v => v
  | jnull => num 0
  | jundef => nan

/-- The JS comparison v <= 0 (after ToNumber coercion of v): false on NaN. -/
def jsNonposNum : JSNum → Prop
  | num x => x ≤ 0
  | posInf => False
  | negInf => True
  | nan => False

noncomputable instance : ∀ v, Decidable (jsTruthy v)
  | jnum (num x) => by unfold jsTruthy; infer_instance
  | jnum posInf => by unfold jsTruthy; infer_instance
  | jnum negInf => by unfold jsTruthy; infer_instance
  | jnum nan => by unfold jsTruthy; infer_instance
  | jnull => by unfold jsTruthy; infer_instance
  | jundef => by unfold jsTruthy; infer_instance

noncomputable instance : ∀ v, Decidable (jsNonposNum v)
  | num x => by unfold jsNonposNum; infer_instance
  | posInf => by unfold jsNonposNum; infer_instance
  | negInf => by unfold jsNonposNum; infer_instance
  | nan => by unfold jsNonposNum; infer_instance

end JSVal

open JSVal

-- ─── chords.js : NOTE_NAMES, noteFrequency, frequencyToNote ───

/-- The 12 chromatic note names, starting at C (chords.js); the single
array literal of the source, written here in two halves. -/
def NOTE_NAMES : List String :=
  ["C", "C#", "D", "D#", "E", "F"] ++
    ["F#", "G", "G#", "A", "A#", "B"]

/-- noteFrequency from chords.js: 440 * 2 ^ (semitonesFromA4 / 12) with
semitonesFromA4 = (octave - 4) * 12 + (noteIndex - 9).  The JS indexOf test
noteIndex === -1 is modelled by the Lean convention indexOf = length. -/
noncomputable def noteFrequency (noteName : String) (octave : ℤ) : Option ℝ :=
  let noteIndex := NOTE_NAMES.indexOf noteName
  if noteIndex = NOTE_NAMES.length then none
  else
    some (440 * (2 : ℝ) ^
      ((((octave - 4) * 12 + ((noteIndex : ℤ) - 9) : ℤ) : ℝ) / 12))

/-- The object returned by frequencyToNote.  note is NOTE_NAMES[noteIndex]
(undefined, i.e. none, when the index is not a valid position); octave and
cents are JS numbers (NaN and infinities can arise on non-finite input). -/
structure NoteReading where
  note : Option String
  octave : JSNum
  cents : JSNum
  freq : JSNum

/-- Array indexing l[i] for a JS-number index: the element when i is a
nonnegative integer within bounds, undefined (none) otherwise. -/
noncomputable def jsIndex (l : List String) : JSNum → Option String
  | num x => if (⌊x⌋ : ℝ) = x ∧ 0 ≤ x then l[⌊x⌋.toNat]? else none
  | _ => none

/-- The body of frequencyToNote (chords.js) after the guard, on a JS number:
semitones = 12 * log2 (freq / 440); roundedSemitones = round semitones;
cents = round ((semitones - roundedSemitones) * 100);
noteIndex = ((roundedSemitones % 12) + 12 + 9) % 12;
octave = floor ((roundedSemitones + 9) / 12) + 4. -/
noncomputable def frequencyToNoteNum (freq : JSNum) : NoteReading :=
  let semitones := jsMul (num 12) (jsLog2 (jsDiv freq (num 440)))
  let roundedSemitones := jsRound semitones
  let cents := jsRound (jsMul (jsSub semitones roundedSemitones) (num 100))
  let noteIndex := jsMod (jsAdd (jsAdd (jsMod roundedSemitones (num 12)) (num 12)) (num 9)) (num 12)
  let octave := jsAdd (jsFloor (jsDiv (jsAdd roundedSemitones (num 9)) (num 12))) (num 4)
  { note := jsIndex NOTE_NAMES noteIndex
    octave := octave
    cents := cents
    freq := freq }

/-- frequencyToNote from chords.js: null when the guard !freq || freq <= 0
fires (which catches 0, NaN, negative numbers, -Infinity, null and undefined,
but lets +Infinity through), otherwise the computed reading. -/
noncomputable def frequencyToNote (freq : JSVal) : Option NoteReading :=
  if ¬ jsTruthy freq ∨ jsNonposNum (toNumber freq) then none
  else some (frequencyToNoteNum (toNumber freq))

-- ─── TuningMeter (FretboardDiagram.jsx doc) : tuningStatus ───

/-- IN_TUNE_THRESHOLD from TuningMeter. -/
def IN_TUNE_THRESHOLD : ℤ := 5

/-- CLOSE_THRESHOLD from TuningMeter. -/
def CLOSE_THRESHOLD : ℤ := 15

/-- The four values the tuningStatus useMemo can return. -/
inductive TuningStatus where
  | inactive
  | inTune
  | close
  | off
  deriving DecidableEq

/-- The tuningStatus useMemo of TuningMeter.  The cents prop is the integer
cents offset of the displayed note (NoteReading.cents); note is the displayed
note (only its null-ness is inspected, so it is modelled as an option). -/
def tuningStatus (cents : ℤ) (isActive : Bool) (note : Option String) : TuningStatus :=
  if isActive = false ∨ note = none then .inactive
  else if |cents| ≤ IN_TUNE_THRESHOLD then .inTune
  else if |cents| ≤ CLOSE_THRESHOLD then .close
  else .off

-- ─── StringDisplay.jsx : nearestString ───

/-- One entry of STANDARD_TUNING (chords.js); the display-only color field is
omitted. -/
structure StringEntry where
  string : ℕ
  note : String
  freq : ℝ
  name : String

/-- STANDARD_TUNING from chords.js (string number, note, frequency, name). -/
noncomputable def STANDARD_TUNING : List StringEntry :=
  [⟨6, ("E"), 82.41, ("Low E")⟩,
   ⟨5, ("A"), 110.0, ("A")⟩,
   ⟨4, ("D"), 146.83, ("D")⟩,
   ⟨3, ("G"), 196.0, ("G")⟩,
   ⟨2, ("B"), 246.94, ("B")⟩,
   ⟨1, ("E"), 329.63, ("High E")⟩]

/-- STRING_MATCH_THRESHOLD from StringDisplay.jsx (cents). -/
def STRING_MATCH_THRESHOLD : ℝ := 200

/-- The closest object built inside the nearestString useMemo: the table index,
the spread table entry, and the rounded cents offset. -/
structure NearestMatch where
  index : ℕ
  entry : StringEntry
  cents : ℤ

/-- The cents distance computed per entry in StringDisplay.jsx:
1200 * log2 (detectedFreq / entry.freq). -/
noncomputable def centsOff (f target : ℝ) : ℝ := 1200 * Real.logb 2 (f / target)

/-- The forEach loop of the nearestString useMemo.  The accumulator carries
closest (initially null) and minCents (initially Infinity, modelled as the top
element of WithTop).  An entry replaces the accumulator iff its absolute cents
distance is strictly below both minCents and STRING_MATCH_THRESHOLD. -/
noncomputable def nearestLoop (f : ℝ) :
    List (ℕ × StringEntry) → Option NearestMatch → WithTop ℝ → Option NearestMatch
  | [], closest, _ => closest
  | p :: rest, closest, minCents =>
      let cents := centsOff f p.2.freq
      let absCents := |cents|
      if (absCents : WithTop ℝ) < minCents ∧ absCents < STRING_MATCH_THRESHOLD then
        nearestLoop f rest (some ⟨p.1, p.2, round cents⟩) (absCents : WithTop ℝ)
      else
        nearestLoop f rest closest minCents

/-- The nearestString useMemo of StringDisplay.jsx.  The guard
!isActive || !detectedFreq || detectedFreq <= 0 returns null; a null or
undefined detectedFreq is the none case of the option. -/
noncomputable def nearestString (detectedFreq : Option ℝ) (isActive : Bool) : Option NearestMatch :=
  match detectedFreq with
  | none => none
  | some f =>
      if isActive = false ∨ f = 0 ∨ f ≤ 0 then none
      else nearestLoop f STANDARD_TUNING.enum none ⊤

-- ─── TunerPage.jsx : note smoothing effect ───

/-- The single pending timeout a run of the smoothing effect can leave behind:
either the 80ms hold timeout for a new note key, or the 400ms clear timeout
scheduled when no note is detected. -/
inductive PendingTimer where
  | holdT (key : String) (fireAt : ℤ)
  | clearT (fireAt : ℤ)
  deriving DecidableEq

/-- The mutable pieces of TunerPage touched by the smoothing effect.  Note
keys are the template strings note + octave; times are integer milliseconds
(Date.now and setTimeout delays); displayed cents and frequency always travel
with the displayed key and are not tracked separately.  lastNoteTime is
written by the effect (and, as in the source, never read). -/
structure TunerDisplay where
  noteHoldBuffer : Option String
  lastNoteTime : ℤ
  displayNote : Option String
  pending : Option PendingTimer
  deriving DecidableEq

/-- The initial TunerPage state: empty buffer, nothing displayed, no timer. -/
def tunerInit : TunerDisplay := ⟨none, 0, none, none⟩

/-- Fire the pending timeout if its time has come.  The 80ms hold callback
displays its key only if the buffer still holds that key; the 400ms clear
callback clears the display. -/
def firePending (s : TunerDisplay) (now : ℤ) : TunerDisplay :=
  match s.pending with
  | some (.holdT k tf) =>
      if tf ≤ now then
        if s.noteHoldBuffer = some k then
          { s with displayNote := some k, pending := none }
        else { s with pending := none }
      else s
  | some (.clearT tf) =>
      if tf ≤ now then { s with displayNote := none, pending := none } else s
  | none => s

/-- One run of the smoothing useEffect at time now with the current
detectedNote key (none when detection became null).  React first runs the
cleanup of the previous run, which clears whichever timeout that run had
scheduled; then the body: with no detection it schedules the 400ms clear;
with a detection matching the buffer it displays the note immediately;
otherwise it stores the key, records the time, and schedules the 80ms hold. -/
def effectRun (s : TunerDisplay) (detected : Option String) (now : ℤ) : TunerDisplay :=
  let s0 := { s with pending := none }
  match detected with
  | none => { s0 with pending := some (.clearT (now + 400)) }
  | some k =>
      if s0.noteHoldBuffer = some k then
        { s0 with displayNote := some k }
      else
        { s0 with noteHoldBuffer := some k, lastNoteTime := now,
                  pending := some (.holdT k (now + 80)) }

/-- Process one timestamped effect trigger: any timeout due by now fires
first, then the effect runs. -/
def stabStep (s : TunerDisplay) (ev : ℤ × Option String) : TunerDisplay :=
  effectRun (firePending s ev.1) ev.2 ev.1

/-- Run a time-ordered trace of effect triggers from the initial state. -/
def runTuner (evs : List (ℤ × Option String)) : TunerDisplay :=
  evs.foldl stabStep tunerInit

-- ─── useMetronome (part_006) ───

/-- One pending scheduler timeout, together with the closure state the
scheduler body captured when it was armed: secondsPerBeat (60/bpm at start
time), beatsPerMeasure (at start time), and the local nextBeatTime. -/
structure Chain where
  id : ℕ
  secondsPerBeat : ℚ
  beatsPerMeasure : ℕ
  nextBeatTime : ℚ
  deriving DecidableEq

/-- One playClick call: the beat counter value, whether it was a downbeat,
and the AudioContext time it was scheduled at. -/
structure BeatEvent where
  beatIndex : ℕ
  isDownbeat : Bool
  scheduledTime : ℚ
  deriving DecidableEq

/-- The useMetronome state: the shared beatRef counter, the isPlaying flag,
timerRef (the id of the most recently armed timeout), a fresh-id counter,
the pending scheduler timeouts, and the list of emitted clicks in order. -/
structure MetroState where
  beatRef : ℕ
  isPlaying : Bool
  timerRef : Option ℕ
  nextTimerId : ℕ
  chains : List Chain
  events : List BeatEvent
  deriving DecidableEq

/-- The fresh hook state: nothing pending, nothing emitted. -/
def metroInit : MetroState := ⟨0, false, none, 0, [], []⟩

/-- The scheduler while loop: while nextBeatTime < threshold (clock + 0.1s
lookahead), emit a click for the current beat and advance nextBeatTime by
secondsPerBeat and the beat counter by one.  The loop only terminates for
0 < secondsPerBeat, so that condition guards the iteration (with a
nonpositive secondsPerBeat the JS loop would never terminate; every claim
assumes bpm > 0). -/
def beatLoop (spb : ℚ) (m : ℕ) (threshold : ℚ) (nbt : ℚ) (beat : ℕ)
    (acc : List BeatEvent) : ℚ × ℕ × List BeatEvent :=
  if h : 0 < spb ∧ nbt < threshold then
    beatLoop spb m threshold (nbt + spb) (beat + 1)
      (acc ++ [⟨beat, decide (beat % m = 0), nbt⟩])
  else (nbt, beat, acc)
termination_by (⌈(threshold - nbt) / spb⌉).toNat
decreasing_by
  have hs : 0 < spb := h.1
  have hlt : nbt < threshold := h.2
  have e1 : (threshold - (nbt + spb)) / spb = (threshold - nbt) / spb - 1 := by
    field_simp
    ring
  have h2 : (0 : ℤ) < ⌈(threshold - nbt) / spb⌉ :=
    Int.ceil_pos.mpr (div_pos (sub_pos.mpr hlt) hs)
  have e2 : ⌈(threshold - (nbt + spb)) / spb⌉ = ⌈(threshold - nbt) / spb⌉ - 1 := by
    rw [e1, Int.ceil_sub_one]
  simp only [e2]
  omega

/-- One synchronous run of the scheduler closure over (secondsPerBeat,
beatsPerMeasure, nextBeatTime): flush all beats below clock + 0.1 through the
shared beatRef, append the clicks, then re-arm itself with setTimeout
(a fresh pending timeout whose id lands in timerRef). -/
def schedulerBody (spb : ℚ) (m : ℕ) (nbt : ℚ) (s : MetroState) (ctxNow : ℚ) : MetroState :=
  let r := beatLoop spb m (ctxNow + 1/10) nbt s.beatRef []
  { s with
      beatRef := r.2.1
      events := s.events ++ r.2.2
      chains := s.chains ++ [⟨s.nextTimerId, spb, m, r.1⟩]
      nextTimerId := s.nextTimerId + 1
      timerRef := some s.nextTimerId }

/-- useMetronome.start: create a fresh AudioContext (its clock read is the
ctxNow argument), reset beatRef to 0, set nextBeatTime to ctxNow + 0.1, run
the scheduler once synchronously, and set isPlaying.  Nothing cancels any
previously pending timeout. -/
def metroStart (s : MetroState) (bpm : ℚ) (m : ℕ) (ctxNow : ℚ) : MetroState :=
  let s1 := { s with beatRef := 0 }
  let s2 := schedulerBody (60 / bpm) m (ctxNow + 1/10) s1 ctxNow
  { s2 with isPlaying := true }

/-- A pending scheduler timeout fires: it is consumed and the scheduler body
runs with the closure state stored in the chain. -/
def fireChain (s : MetroState) (id : ℕ) (ctxNow : ℚ) : MetroState :=
  match s.chains.find? (fun ch => ch.id == id) with
  | none => s
  | some c =>
      schedulerBody c.secondsPerBeat c.beatsPerMeasure c.nextBeatTime
        { s with chains := s.chains.filter (fun ch => ch.id != id) } ctxNow

/-- useMetronome.stop: clearTimeout(timerRef.current) cancels only the
timeout whose id is currently in timerRef; beatRef is reset and isPlaying
cleared.  (Closing the AudioContext silences clicks but does not stop any
other pending scheduler loop.) -/
def metroStop (s : MetroState) : MetroState :=
  let chains :=
    match s.timerRef with
    | some id => s.chains.filter (fun ch => ch.id != id)
    | none => s.chains
  { s with chains := chains, timerRef := none, beatRef := 0, isPlaying := false }

/-- The timeout currently referenced by timerRef fires at clock time ctxNow
(the normal single-loop operation of the metronome). -/
def tickCurrent (s : MetroState) (ctxNow : ℚ) : MetroState :=
  match s.timerRef with
  | some id => fireChain s id ctxNow
  | none => s

/-- Run a sequence of scheduler ticks at the given clock times. -/
def runTicks (s : MetroState) (ts : List ℚ) : MetroState :=
  ts.foldl tickCurrent s

-- ─── usePitch.detectPitch (part_006) ───

/-- CLARITY_THRESHOLD from usePitch. -/
def CLARITY_THRESHOLD : ℝ := 0.85

/-- VOLUME_THRESHOLD from usePitch (dBFS). -/
def VOLUME_THRESHOLD : ℝ := -40

/-- Sample access buffer[i], with out-of-range reads as 0 (in-range reads are all that the
loops below perform; the Float32Array correlations is modelled separately). -/
def sampleAt (buffer : List ℝ) (i : ℕ) : ℝ := buffer.getD i 0

/-- Step 1 of detectPitch: rms = sqrt (sum of squares / bufferLength). -/
noncomputable def rmsOf (buffer : List ℝ) : ℝ :=
  Real.sqrt ((∑ i ∈ Finset.range buffer.length,
    sampleAt buffer i * sampleAt buffer i) / (buffer.length : ℝ))

/-- The level dbFS = 20 * log10 rms, as a JS number (-Infinity for an all-zero frame). -/
noncomputable def dbFSOf (buffer : List ℝ) : JSNum :=
  jsMul (num 20) (jsLog10R (rmsOf buffer))

/-- The bound minPeriod = floor (sampleRate / 1400); sampleRate is positive in every
use, where the toNat conversion is exact. -/
noncomputable def minPeriodOf (sr : ℝ) : ℕ := (⌊sr / 1400⌋).toNat

/-- The bound maxPeriod = floor (sampleRate / 70). -/
noncomputable def maxPeriodOf (sr : ℝ) : ℕ := (⌊sr / 70⌋).toNat

/-- The normalized cross-correlation computed for one lag value: the raw
correlation divided by sqrt (norm1 * norm2) when that factor is positive,
the raw correlation unchanged otherwise (which is 0 there, since a zero norm
forces every overlapping sample to be 0). -/
noncomputable def corrAt (buffer : List ℝ) (lag : ℕ) : ℝ :=
  let n := buffer.length
  let c := ∑ i ∈ Finset.range (n - lag), sampleAt buffer i * sampleAt buffer (i + lag)
  let norm1 := ∑ i ∈ Finset.range (n - lag), sampleAt buffer i * sampleAt buffer i
  let norm2 := ∑ i ∈ Finset.range (n - lag),
    sampleAt buffer (i + lag) * sampleAt buffer (i + lag)
  let normFactor := Real.sqrt (norm1 * norm2)
  if 0 < normFactor then c / normFactor else c

/-- The lag values visited by the for loop: from minPeriod while
lag < maxPeriod and lag < bufferLength. -/
noncomputable def lagsOf (buffer : List ℝ) (sr : ℝ) : List ℕ :=
  List.range' (minPeriodOf sr) (min (maxPeriodOf sr) buffer.length - minPeriodOf sr)

/-- The running (bestCorrelation, bestPeriod) scan of the lag loop, starting
from (-1, 0); a lag replaces the pair iff its correlation is strictly
greater. -/
noncomputable def bestScan (buffer : List ℝ) : List ℕ → ℝ × ℕ → ℝ × ℕ
  | [], acc => acc
  | lag :: rest, acc =>
      let c := corrAt buffer lag
      if acc.1 < c then bestScan buffer rest (c, lag)
      else bestScan buffer rest acc

/-- The pair (bestCorrelation, bestPeriod) after the lag loop. -/
noncomputable def bestOf (buffer : List ℝ) (sr : ℝ) : ℝ × ℕ :=
  bestScan buffer (lagsOf buffer sr) (-1, 0)

/-- The correlations Float32Array after the loop: computed entries at the
visited lags, 0 everywhere else (Float32Array slots are zero-initialized, and
out-of-range reads are guarded by an explicit or-zero in the source). -/
noncomputable def corrArr (buffer : List ℝ) (sr : ℝ) (lag : ℕ) : ℝ :=
  if minPeriodOf sr ≤ lag ∧ lag < min (maxPeriodOf sr) buffer.length then
    corrAt buffer lag
  else 0

/-- Step 3 of detectPitch: parabolic refinement of bestPeriod.  The shift
(y0 - y2) / (2 * (y0 - 2*y1 + y2)) is finite exactly when its denominator is
nonzero (y0, y1, y2 are finite); a non-finite shift is discarded. -/
noncomputable def refinedPeriodOf (buffer : List ℝ) (sr : ℝ) : ℝ :=
  let bp := (bestOf buffer sr).2
  if 0 < bp ∧ bp < buffer.length - 1 then
    let y0 := corrArr buffer sr (bp - 1)
    let y1 := corrArr buffer sr bp
    let y2 := corrArr buffer sr (bp + 1)
    let d := 2 * (y0 - 2 * y1 + y2)
    if d = 0 then (bp : ℝ) else (bp : ℝ) + (y0 - y2) / d
  else (bp : ℝ)

/-- Step 4: frequency = sampleRate / refinedPeriod, as a JS number (division
by a zero refined period gives Infinity for a positive sample rate). -/
noncomputable def freqOf (buffer : List ℝ) (sr : ℝ) : JSNum :=
  jsDiv (num sr) (num (refinedPeriodOf buffer sr))

/-- detectPitch from usePitch: none below the volume threshold; otherwise
the estimate (frequency, bestCorrelation) iff bestCorrelation exceeds
CLARITY_THRESHOLD and the frequency lies strictly between 70 and 1400 Hz.
(The source additionally derives detectedNote = frequencyToNote(frequency)
from the same estimate.) -/
noncomputable def detectPitch (buffer : List ℝ) (sr : ℝ) : Option (JSNum × ℝ) :=
  if jsLtB (dbFSOf buffer) (num VOLUME_THRESHOLD) then none
  else
    let bestCorrelation := (bestOf buffer sr).1
    let frequency := freqOf buffer sr
    if decide (CLARITY_THRESHOLD < bestCorrelation) && jsGtB frequency (num 70) &&
        jsLtB frequency (num 1400) then
      some (frequency, bestCorrelation)
    else none

-- ─── Auxiliary definitions used only in statements and proofs ───

/-- A JS value that is a positive number (in JS, Infinity is a number and is
greater than zero, so it counts as a positive number). -/
def isPositiveNumber : JSVal → Prop
  | .jnum (num x) => 0 < x
  | .jnum posInf => True
  | _ => False

/-- The JS remainder of two integers: the remainder with the sign of the
dividend (truncated division), expressed with the Euclidean operations. -/
def jsRemZ (a d : ℤ) : ℤ := if 0 ≤ a then a % d else -((-a) % d)

/-- The click the scheduler emits for beat number i, when the first beat is
scheduled at time init and beats are p seconds apart: beat index i, downbeat
iff i mod beatsPerMeasure = 0, scheduled at init + i * p. -/
def canonEvent (m : ℕ) (init p : ℚ) (i : ℕ) : BeatEvent :=
  ⟨i, decide (i % m = 0), init + i * p⟩

/-- The single-loop regime of the metronome: exactly one scheduler timeout is
pending, timerRef points at it, its closure state is (p, m) with nextBeatTime
init + beatRef * p, and the emitted clicks so far are exactly the beats
0, ..., beatRef - 1 at their nominal times. -/
def SingleChain (s : MetroState) (id : ℕ) (p : ℚ) (m : ℕ) (init : ℚ) : Prop :=
  s.timerRef = some id ∧
  s.chains = [⟨id, p, m, init + s.beatRef * p⟩] ∧
  s.events = (List.range s.beatRef).map (canonEvent m init p)

/-- Invariant of the nearestString forEach loop, relating the loop
accumulator to the list of (index, entry) pairs already visited: either
nothing has qualified yet (every visited entry is at least the threshold
away), or the accumulator holds the visited entry with the smallest absolute
cents distance, strictly smaller than at every earlier index (first match
wins on ties) and strictly below the threshold. -/
def NearestInv (f : ℝ) (seen : List (ℕ × StringEntry))
    (closest : Option NearestMatch) (minCents : WithTop ℝ) : Prop :=
  (closest = none ∧ minCents = ⊤ ∧
    ∀ p ∈ seen, STRING_MATCH_THRESHOLD ≤ |centsOff f p.2.freq|) ∨
  (∃ p ∈ seen,
    closest = some ⟨p.1, p.2, round (centsOff f p.2.freq)⟩ ∧
    minCents = ((|centsOff f p.2.freq| : ℝ) : WithTop ℝ) ∧
    |centsOff f p.2.freq| < STRING_MATCH_THRESHOLD ∧
    (∀ q ∈ seen, q.1 < p.1 → |centsOff f p.2.freq| < |centsOff f q.2.freq|) ∧
    (∀ q ∈ seen, |centsOff f p.2.freq| ≤ |centsOff f q.2.freq|))

end FretForge

-- ───────────────────────── Theorems ─────────────────────────

namespace FretForge

open JSNum JSVal

namespace JSNum

@[simp] theorem jsAdd_num_num (a b : ℝ) : jsAdd (num a) (num b) = num (a + b) := rfl

@[simp] theorem jsSub_num_num (a b : ℝ) : jsSub (num a) (num b) = num (a - b) := rfl

@[simp] theorem jsMul_num_num (a b : ℝ) : jsMul (num a) (num b) = num (a * b) := rfl

@[simp] theorem jsRound_num (a : ℝ) : jsRound (num a) = num ((round a : ℤ) : ℝ) := rfl

@[simp] theorem jsFloor_num (a : ℝ) : jsFloor (num a) = num ((⌊a⌋ : ℤ) : ℝ) := rfl

theorem jsDiv_num_num (a b : ℝ) (hb : b ≠ 0) : jsDiv (num a) (num b) = num (a / b) := by
  simp [jsDiv, hb]

theorem jsLog2_num_pos (x : ℝ) (hx : 0 < x) : jsLog2 (num x) = num (Real.logb 2 x) := by
  simp [jsLog2, hx]

theorem jsMod_num_num (a b : ℝ) (hb : b ≠ 0) :
    jsMod (num a) (num b) = num (a - b * (truncToZero (a / b) : ℝ)) := by
  simp [jsMod, hb]

theorem jsLtB_num_num (a b : ℝ) : jsLtB (num a) (num b) = decide (a < b) := rfl

end JSNum

/-- Floor of an integer divided by a natural, taken in the reals, is the
integer Euclidean quotient. -/
theorem floor_intCast_div_real (a : ℤ) (d : ℕ) : ⌊(a : ℝ) / (d : ℝ)⌋ = a / (d : ℤ) := by
  rw [show (a : ℝ) / (d : ℝ) = (((a : ℚ) / (d : ℚ) : ℚ) : ℝ) by push_cast; ring]
  rw [Rat.floor_cast, Rat.floor_intCast_div_natCast]

/-- Ceiling counterpart of floor_intCast_div_real. -/
theorem ceil_intCast_div_real (a : ℤ) (d : ℕ) : ⌈(a : ℝ) / (d : ℝ)⌉ = -((-a) / (d : ℤ)) := by
  rw [show (a : ℝ) / (d : ℝ) = -(((-a : ℤ) : ℝ) / (d : ℝ)) by push_cast; ring]
  rw [Int.ceil_neg, floor_intCast_div_real]

/-- Truncation toward zero of an integer-over-natural quotient. -/
theorem truncToZero_intCast_div (a : ℤ) (d : ℕ) (hd : 0 < d) :
    truncToZero ((a : ℝ) / (d : ℝ)) = if 0 ≤ a then a / (d : ℤ) else -((-a) / (d : ℤ)) := by
  unfold truncToZero
  by_cases ha : 0 ≤ a
  · rw [if_pos ha, if_pos, floor_intCast_div_real]
    exact div_nonneg (by exact_mod_cast ha) (by positivity)
  · rw [if_neg ha, if_neg, ceil_intCast_div_real]
    push_neg at ha ⊢
    apply div_neg_of_neg_of_pos
    · exact_mod_cast ha
    · exact_mod_cast hd

/-- The JS remainder of an integer by a positive natural, evaluated through
the real-valued modelling of the % operator. -/
theorem jsMod_intCast (a : ℤ) (d : ℕ) (hd : 0 < d) :
    jsMod (num (a : ℝ)) (num (d : ℝ)) = num ((jsRemZ a (d : ℤ) : ℤ) : ℝ) := by
  have hdR : (d : ℝ) ≠ 0 := by positivity
  rw [jsMod_num_num _ _ hdR]
  congr 1
  rw [truncToZero_intCast_div a d hd]
  unfold jsRemZ
  by_cases ha : 0 ≤ a
  · rw [if_pos ha, if_pos ha]
    rw [Int.emod_def]
    push_cast
    ring
  · rw [if_neg ha, if_neg ha]
    rw [Int.emod_def]
    push_cast
    ring

/-- Modulo-12 instance of the JS remainder bridge. -/
theorem jsMod_twelve (a : ℤ) : jsMod (num (a : ℝ)) (num 12) = num ((jsRemZ a 12 : ℤ) : ℝ) := by
  have h := jsMod_intCast a 12 (by norm_num)
  simpa using h

/-- Floor of an integer plus nine over twelve, in the reals. -/
theorem floor_div_twelve (a : ℤ) : ⌊(a : ℝ) / 12⌋ = a / 12 := by
  have h := floor_intCast_div_real a 12
  simpa using h

/-- Indexing with an integer-valued JS number is list indexing. -/
theorem jsIndex_intCast (l : List String) (k : ℤ) (hk : 0 ≤ k) :
    jsIndex l (num (k : ℝ)) = l[k.toNat]? := by
  rw [show jsIndex l (num (k : ℝ)) =
    (if (⌊(k : ℝ)⌋ : ℝ) = (k : ℝ) ∧ 0 ≤ (k : ℝ) then l[⌊(k : ℝ)⌋.toNat]? else none) from rfl]
  rw [if_pos ⟨by simp, by exact_mod_cast hk⟩]
  rw [Int.floor_intCast]

/-- The cents field computed by frequencyToNoteNum on a positive finite
frequency: round ((semitones - round semitones) * 100). -/
theorem cents_of_pos (x : ℝ) (hx : 0 < x) :
    (frequencyToNoteNum (num x)).cents =
      num ((round ((12 * Real.logb 2 (x / 440) -
        ((round (12 * Real.logb 2 (x / 440)) : ℤ) : ℝ)) * 100) : ℤ) : ℝ) := by
  have h440 : (440 : ℝ) ≠ 0 := by norm_num
  have hq : 0 < x / 440 := by positivity
  unfold frequencyToNoteNum
  rw [jsDiv_num_num _ _ h440, jsLog2_num_pos _ hq]
  simp only [jsMul_num_num, jsRound_num, jsSub_num_num]

/-- The octave field computed by frequencyToNoteNum on a positive finite
frequency: floor ((round semitones + 9) / 12) + 4. -/
theorem octave_of_pos (x : ℝ) (hx : 0 < x) :
    (frequencyToNoteNum (num x)).octave =
      num (((round (12 * Real.logb 2 (x / 440)) + 9) / 12 + 4 : ℤ) : ℝ) := by
  have h440 : (440 : ℝ) ≠ 0 := by norm_num
  have hq : 0 < x / 440 := by positivity
  unfold frequencyToNoteNum
  rw [jsDiv_num_num _ _ h440, jsLog2_num_pos _ hq]
  simp only [jsMul_num_num, jsRound_num, jsAdd_num_num]
  rw [show ((round (12 * Real.logb 2 (x / 440)) : ℤ) : ℝ) + 9 =
    ((round (12 * Real.logb 2 (x / 440)) + 9 : ℤ) : ℝ) by push_cast; ring]
  rw [jsDiv_num_num _ _ (by norm_num : (12 : ℝ) ≠ 0), jsFloor_num, floor_div_twelve,
    jsAdd_num_num]
  push_cast
  ring_nf

/-- The note field computed by frequencyToNoteNum on a positive finite
frequency: NOTE_NAMES at ((round semitones rem 12) + 12 + 9) rem 12. -/
theorem note_of_pos (x : ℝ) (hx : 0 < x) :
    (frequencyToNoteNum (num x)).note =
      jsIndex NOTE_NAMES
        (num ((jsRemZ (jsRemZ (round (12 * Real.logb 2 (x / 440))) 12 + 12 + 9) 12 : ℤ) : ℝ)) := by
  have h440 : (440 : ℝ) ≠ 0 := by norm_num
  have hq : 0 < x / 440 := by positivity
  unfold frequencyToNoteNum
  rw [jsDiv_num_num _ _ h440, jsLog2_num_pos _ hq]
  simp only [jsMul_num_num, jsRound_num]
  rw [jsMod_twelve, jsAdd_num_num, jsAdd_num_num]
  rw [show ((jsRemZ (round (12 * Real.logb 2 (x / 440))) 12 : ℤ) : ℝ) + 12 + 9 =
    ((jsRemZ (round (12 * Real.logb 2 (x / 440))) 12 + 12 + 9 : ℤ) : ℝ) by push_cast; ring]
  rw [jsMod_twelve]

/-- Claim C5, counterexample: the input +Infinity is not screened by the
guard of frequencyToNote; instead of none the function returns a reading with
an undefined note name, infinite octave and NaN cents, contradicting the
claim that every non-finite input yields none with no NaN or undefined
fields. -/
theorem C5_counterexample :
    frequencyToNote (.jnum posInf) = some ⟨none, posInf, nan, posInf⟩ := by
  have hg : ¬ (¬ jsTruthy (JSVal.jnum posInf) ∨ jsNonposNum (toNumber (JSVal.jnum posInf))) := by
    simp [jsTruthy, toNumber, jsNonposNum]
  rw [frequencyToNote, if_neg hg]
  show some (frequencyToNoteNum posInf) = _
  unfold frequencyToNoteNum
  norm_num [jsDiv, jsLog2, jsMul, jsRound, jsSub, jsMod, jsAdd, jsFloor, jsIndex]

/-- Claim C5, amended: frequencyToNote returns none for every non-positive
real input, for NaN and for -Infinity (all caught by the falsy-or-nonpositive
guard), but +Infinity passes the guard and produces a degenerate reading
(undefined note, infinite octave, NaN cents) instead of none. -/
theorem C5_input_screening :
    (∀ x : ℝ, x ≤ 0 → frequencyToNote (.jnum (num x)) = none) ∧
    frequencyToNote (.jnum nan) = none ∧
    frequencyToNote (.jnum negInf) = none ∧
    frequencyToNote (.jnum posInf) = some ⟨none, posInf, nan, posInf⟩ := by
  refine ⟨fun x hx => ?_, ?_, ?_, ?_⟩
  · rw [frequencyToNote, if_pos]
    exact Or.inr (by simpa [toNumber, jsNonposNum] using hx)
  · rw [frequencyToNote, if_pos]
    exact Or.inl (by simp [jsTruthy])
  · rw [frequencyToNote, if_pos]
    exact Or.inr (by simp [toNumber, jsNonposNum])
  · have hg : ¬ (¬ jsTruthy (JSVal.jnum posInf) ∨
        jsNonposNum (toNumber (JSVal.jnum posInf))) := by
      simp [jsTruthy, toNumber, jsNonposNum]
    rw [frequencyToNote, if_neg hg]
    show some (frequencyToNoteNum posInf) = _
    unfold frequencyToNoteNum
    norm_num [jsDiv, jsLog2, jsMul, jsRound, jsSub, jsMod, jsAdd, jsFloor, jsIndex]

/-- Witness for C5_input_screening at the concrete input -1. -/
theorem C5_input_screening_witness : frequencyToNote (.jnum (num (-1))) = none :=
  C5_input_screening.1 (-1) (by norm_num)

/-- Claim C10: for every JS value that is not a positive number (null,
undefined, NaN, 0, negative numbers, -Infinity; in JS the value Infinity is a
positive number and is outside this quantifier), frequencyToNote returns null,
and, being a total function, it cannot throw. -/
theorem C10_invalid_input_returns_null (v : JSVal) (h : ¬ isPositiveNumber v) :
    frequencyToNote v = none := by
  cases v with
  | jnum w =>
    cases w with
    | num x =>
      have hx : ¬ 0 < x := by simpa [isPositiveNumber] using h
      rw [frequencyToNote, if_pos]
      exact Or.inr (by simpa [toNumber, jsNonposNum] using not_lt.mp hx)
    | posInf => exact absurd (by simp [isPositiveNumber]) h
    | negInf =>
      rw [frequencyToNote, if_pos]
      exact Or.inr (by simp [toNumber, jsNonposNum])
    | nan =>
      rw [frequencyToNote, if_pos]
      exact Or.inl (by simp [jsTruthy])
  | jnull =>
    rw [frequencyToNote, if_pos]
    exact Or.inl (by simp [jsTruthy])
  | jundef =>
    rw [frequencyToNote, if_pos]
    exact Or.inl (by simp [jsTruthy])

/-- Witness for C10_invalid_input_returns_null at the concrete input null. -/
theorem C10_invalid_input_returns_null_witness :
    ¬ isPositiveNumber .jnull ∧ frequencyToNote .jnull = none :=
  ⟨by simp [isPositiveNumber],
   C10_invalid_input_returns_null .jnull (by simp [isPositiveNumber])⟩

/-- Claim C6, counterexample: at the positive finite input 440 * 2 ^ (1/24)
(semitone offset exactly one half) the cents offset computed by
frequencyToNote is exactly -50, which is outside the half-open interval
(-50, 50] asserted by the claim. -/
theorem C6_counterexample :
    ∃ r : NoteReading,
      frequencyToNote (.jnum (num (440 * (2 : ℝ) ^ ((1 : ℝ) / 24)))) = some r ∧
      r.cents = num ((-50 : ℤ) : ℝ) := by
  have hf : (0 : ℝ) < 440 * (2 : ℝ) ^ ((1 : ℝ) / 24) := by positivity
  have hg : ¬ (¬ jsTruthy (JSVal.jnum (num (440 * (2 : ℝ) ^ ((1 : ℝ) / 24)))) ∨
      jsNonposNum (toNumber (JSVal.jnum (num (440 * (2 : ℝ) ^ ((1 : ℝ) / 24)))))) := by
    simp only [jsTruthy, toNumber, jsNonposNum, not_or, not_not, not_le]
    exact ⟨ne_of_gt hf, hf⟩
  refine ⟨_, by rw [frequencyToNote, if_neg hg], ?_⟩
  show (frequencyToNoteNum (num _)).cents = _
  rw [cents_of_pos _ hf]
  have hsem : 12 * Real.logb 2 ((440 * (2 : ℝ) ^ ((1 : ℝ) / 24)) / 440) = 1 / 2 := by
    rw [mul_div_cancel_left₀ _ (by norm_num : (440 : ℝ) ≠ 0),
      Real.logb_rpow (by norm_num) (by norm_num)]
    norm_num
  rw [hsem]
  have h1 : round ((1 : ℝ) / 2) = 1 := by
    rw [round_eq]
    norm_num
  rw [h1]
  have h2 : ((1 : ℝ) / 2 - ((1 : ℤ) : ℝ)) * 100 = ((-50 : ℤ) : ℝ) := by push_cast; ring
  rw [h2, round_intCast]

/-- Claim C6, amended: for every positive finite frequency input the cents
offset in the reading produced by frequencyToNote is an integer in the closed
range [-50, 50] (the value -50 is attained, so the interval is closed on the
left, not open as claimed). -/
theorem C6_cents_closed_range (x : ℝ) (hx : 0 < x) :
    ∃ r : NoteReading, frequencyToNote (.jnum (num x)) = some r ∧
      ∃ c : ℤ, r.cents = num (c : ℝ) ∧ -50 ≤ c ∧ c ≤ 50 := by
  have hg : ¬ (¬ jsTruthy (JSVal.jnum (num x)) ∨
      jsNonposNum (toNumber (JSVal.jnum (num x)))) := by
    simp only [jsTruthy, toNumber, jsNonposNum, not_or, not_not, not_le]
    exact ⟨ne_of_gt hx, hx⟩
  refine ⟨_, by rw [frequencyToNote, if_neg hg], ?_⟩
  show ∃ c : ℤ, (frequencyToNoteNum (num x)).cents = num (c : ℝ) ∧ -50 ≤ c ∧ c ≤ 50
  rw [cents_of_pos _ hx]
  set sem := 12 * Real.logb 2 (x / 440) with hsemdef
  set d := sem - ((round sem : ℤ) : ℝ) with hd
  refine ⟨round (d * 100), rfl, ?_, ?_⟩
  · have habs : |d| ≤ 1 / 2 := abs_sub_round sem
    have hlow : -(50 : ℝ) - 1 / 2 ≤ d * 100 - 1 / 2 := by
      have := (abs_le.mp habs).1
      nlinarith
    have h2 : d * 100 - 1 / 2 < ((round (d * 100) : ℤ) : ℝ) := sub_half_lt_round _
    have h3 : (-51 : ℝ) < ((round (d * 100) : ℤ) : ℝ) := by linarith
    have h4 : (-51 : ℤ) < round (d * 100) := by exact_mod_cast h3
    omega
  · have habs : |d| ≤ 1 / 2 := abs_sub_round sem
    have hup : d * 100 + 1 / 2 ≤ (50 : ℝ) + 1 / 2 := by
      have := (abs_le.mp habs).2
      nlinarith
    have h2 : ((round (d * 100) : ℤ) : ℝ) ≤ d * 100 + 1 / 2 := round_le_add_half _
    have h3 : ((round (d * 100) : ℤ) : ℝ) < 51 := by linarith
    have h4 : round (d * 100) < (51 : ℤ) := by exact_mod_cast h3
    omega

/-- Witness for C6_cents_closed_range at the concrete input 440. -/
theorem C6_cents_closed_range_witness :
    (0 : ℝ) < 440 ∧
    (∃ r : NoteReading, frequencyToNote (.jnum (num 440)) = some r ∧
      ∃ c : ℤ, r.cents = num (c : ℝ) ∧ -50 ≤ c ∧ c ≤ 50) :=
  ⟨by norm_num, C6_cents_closed_range 440 (by norm_num)⟩

/-- Claim C1: for every valid note name and octave, frequencyToNote applied
to noteFrequency returns a reading whose note is the given name, whose octave
is the given octave, and whose cents offset is 0. -/
theorem C1_noteMapper_roundTrip (noteName : String) (octave : ℤ) (f : ℝ)
    (h : noteFrequency noteName octave = some f) :
    ∃ r : NoteReading, frequencyToNote (.jnum (num f)) = some r ∧
      r.note = some noteName ∧ r.octave = num ((octave : ℤ) : ℝ) ∧ r.cents = num 0 := by
  unfold noteFrequency at h
  by_cases hlen : NOTE_NAMES.indexOf noteName = NOTE_NAMES.length
  · rw [if_pos hlen] at h
    exact absurd h (by simp)
  · rw [if_neg hlen] at h
    set i : ℕ := NOTE_NAMES.indexOf noteName with hidef
    set s : ℤ := (octave - 4) * 12 + ((i : ℤ) - 9) with hsdef
    have hfval : f = 440 * (2 : ℝ) ^ ((s : ℝ) / 12) := (Option.some_inj.mp h).symm
    subst hfval
    have hf : (0 : ℝ) < 440 * (2 : ℝ) ^ ((s : ℝ) / 12) := by positivity
    have hmem : noteName ∈ NOTE_NAMES :=
      List.indexOf_lt_length.mp (lt_of_le_of_ne List.indexOf_le_length hlen)
    have hi12 : i < 12 := by
      have hlen12 : NOTE_NAMES.length = 12 := by rfl
      have := List.indexOf_lt_length.mpr hmem
      omega
    have hg : ¬ (¬ jsTruthy (JSVal.jnum (num (440 * (2 : ℝ) ^ ((s : ℝ) / 12)))) ∨
        jsNonposNum (toNumber (JSVal.jnum (num (440 * (2 : ℝ) ^ ((s : ℝ) / 12)))))) := by
      simp only [jsTruthy, toNumber, jsNonposNum, not_or, not_not, not_le]
      exact ⟨ne_of_gt hf, hf⟩
    have hsem : 12 * Real.logb 2 ((440 * (2 : ℝ) ^ ((s : ℝ) / 12)) / 440) = (s : ℝ) := by
      rw [mul_div_cancel_left₀ _ (by norm_num : (440 : ℝ) ≠ 0),
        Real.logb_rpow (by norm_num) (by norm_num)]
      rw [mul_comm, div_mul_cancel₀ _ (by norm_num : (12 : ℝ) ≠ 0)]
    refine ⟨_, by rw [frequencyToNote, if_neg hg], ?_, ?_, ?_⟩
    · show (frequencyToNoteNum (num _)).note = _
      rw [note_of_pos _ hf, hsem, round_intCast]
      have hidx : jsRemZ (jsRemZ s 12 + 12 + 9) 12 = (i : ℤ) := by
        unfold jsRemZ
        split_ifs <;> omega
      rw [hidx, jsIndex_intCast _ _ (Int.natCast_nonneg i), Int.toNat_natCast]
      exact List.getElem?_indexOf hmem
    · show (frequencyToNoteNum (num _)).octave = _
      rw [octave_of_pos _ hf, hsem, round_intCast]
      have hoct : (s + 9) / 12 + 4 = octave := by omega
      rw [hoct]
    · show (frequencyToNoteNum (num _)).cents = _
      rw [cents_of_pos _ hf, hsem, round_intCast]
      have h0 : ((s : ℤ) : ℝ) - ((s : ℤ) : ℝ) = 0 := by ring
      rw [h0, zero_mul]
      rw [show round (0 : ℝ) = ((0 : ℤ) : ℤ) from round_zero]
      norm_num

/-- Witness for C1_noteMapper_roundTrip at the note A octave 4 (440 Hz). -/
theorem C1_noteMapper_roundTrip_witness :
    noteFrequency ("A") 4 = some (440 * (2 : ℝ) ^ ((((4 - 4) * 12 + ((9 : ℤ) - 9) : ℤ) : ℝ) / 12)) ∧
    ∃ r : NoteReading,
      frequencyToNote (.jnum (num (440 * (2 : ℝ) ^ ((((4 - 4) * 12 + ((9 : ℤ) - 9) : ℤ) : ℝ) / 12)))) =
        some r ∧
      r.note = some ("A") ∧ r.octave = num (((4 : ℤ) : ℝ)) ∧ r.cents = num 0 := by
  have hf : noteFrequency ("A") 4 =
      some (440 * (2 : ℝ) ^ ((((4 - 4) * 12 + ((9 : ℤ) - 9) : ℤ) : ℝ) / 12)) := by
    unfold noteFrequency
    rw [show NOTE_NAMES.indexOf ("A") = 9 from rfl,
      show NOTE_NAMES.length = 12 from rfl]
    norm_num
  exact ⟨hf, C1_noteMapper_roundTrip ("A") 4 _ hf⟩

/-- Claim C8: with a displayed note present, the tuning zone is inactive
exactly when the activity flag is off; otherwise in-tune for an absolute
cents offset of at most 5, close for offsets from 6 to 15, and off beyond 15
(boundaries at 5 and 15 inclusive). -/
theorem C8_zone_boundaries (cents : ℤ) (isActive : Bool) (note : Option String)
    (hn : note ≠ none) :
    (isActive = false → tuningStatus cents isActive note = .inactive) ∧
    (isActive = true → (tuningStatus cents isActive note = .inTune ↔ |cents| ≤ 5)) ∧
    (isActive = true →
      (tuningStatus cents isActive note = .close ↔ 5 < |cents| ∧ |cents| ≤ 15)) ∧
    (isActive = true → (tuningStatus cents isActive note = .off ↔ 15 < |cents|)) := by
  unfold tuningStatus IN_TUNE_THRESHOLD CLOSE_THRESHOLD
  refine ⟨fun hF => by simp [hF], fun hT => ?_, fun hT => ?_, fun hT => ?_⟩ <;>
    (subst hT
     simp only [Bool.true_eq_false, false_or, if_neg hn]
     split_ifs with h1 h2 <;> simp_all <;> omega)

/-- The nearestString loop returns null when no entry comes strictly within
the threshold, whatever the running minimum is. -/
theorem nearestLoop_none (f : ℝ) :
    ∀ (l : List (ℕ × StringEntry)) (mc : WithTop ℝ),
      (∀ p ∈ l, ¬ (|centsOff f p.2.freq| < STRING_MATCH_THRESHOLD)) →
      nearestLoop f l none mc = none := by
  intro l
  induction l with
  | nil => intro mc _; rfl
  | cons r rest ih =>
    intro mc hl
    simp only [nearestLoop]
    rw [if_neg]
    · exact ih _ fun p hp => hl p (List.mem_cons_of_mem _ hp)
    · rintro ⟨_, h2⟩
      exact hl r (List.mem_cons_self _ _) h2

/-- The forEach loop of nearestString preserves NearestInv. -/
theorem nearestLoop_inv (f : ℝ) :
    ∀ (rest : List (ℕ × StringEntry)),
      List.Pairwise (fun a b : ℕ × StringEntry => a.1 < b.1) rest →
      ∀ (seen : List (ℕ × StringEntry)) (closest : Option NearestMatch) (mc : WithTop ℝ),
        NearestInv f seen closest mc →
        (∀ p ∈ seen, ∀ q ∈ rest, p.1 < q.1) →
        ∃ mc2, NearestInv f (seen ++ rest) (nearestLoop f rest closest mc) mc2 := by
  intro rest
  induction rest with
  | nil =>
    intro _ seen closest mc hInv _
    exact ⟨mc, by simpa using hInv⟩
  | cons r rest ih =>
    intro hpair seen closest mc hInv hord
    have hpair2 := (List.pairwise_cons.mp hpair).2
    have hhead := (List.pairwise_cons.mp hpair).1
    have hord2 : ∀ p ∈ seen ++ [r], ∀ q ∈ rest, p.1 < q.1 := by
      intro p hp q hq
      rcases List.mem_append.mp hp with hp1 | hp1
      · exact hord p hp1 q (List.mem_cons_of_mem _ hq)
      · rw [List.mem_singleton.mp hp1]
        exact hhead q hq
    simp only [nearestLoop]
    by_cases hcond : (((|centsOff f r.2.freq| : ℝ) : WithTop ℝ) < mc ∧
        |centsOff f r.2.freq| < STRING_MATCH_THRESHOLD)
    · rw [if_pos hcond]
      have hInv2 : NearestInv f (seen ++ [r])
          (some ⟨r.1, r.2, round (centsOff f r.2.freq)⟩)
          (((|centsOff f r.2.freq| : ℝ) : WithTop ℝ)) := by
        refine Or.inr ⟨r, List.mem_append_right _ (List.mem_singleton_self r), rfl, rfl,
          hcond.2, ?_, ?_⟩
        · intro q hq hqlt
          rcases List.mem_append.mp hq with hq1 | hq1
          · rcases hInv with ⟨_, _, hall⟩ | ⟨p0, hp0mem, _, hmc, _, _, hmin⟩
            · exact lt_of_lt_of_le hcond.2 (hall q hq1)
            · have h1 : |centsOff f r.2.freq| < |centsOff f p0.2.freq| := by
                have := hcond.1
                rw [hmc] at this
                exact_mod_cast this
              by_cases hqp : q = p0
              · rw [hqp]; exact h1
              · exact lt_of_lt_of_le h1 (hmin q hq1)
          · rw [List.mem_singleton.mp hq1] at hqlt
            exact absurd hqlt (lt_irrefl _)
        · intro q hq
          rcases List.mem_append.mp hq with hq1 | hq1
          · rcases hInv with ⟨_, _, hall⟩ | ⟨p0, hp0mem, _, hmc, _, _, hmin⟩
            · exact le_of_lt (lt_of_lt_of_le hcond.2 (hall q hq1))
            · have h1 : |centsOff f r.2.freq| < |centsOff f p0.2.freq| := by
                have := hcond.1
                rw [hmc] at this
                exact_mod_cast this
              exact le_of_lt (lt_of_lt_of_le h1 (hmin q hq1))
          · rw [List.mem_singleton.mp hq1]
      have := ih hpair2 (seen ++ [r]) _ _ hInv2 hord2
      simpa [List.append_assoc] using this
    · rw [if_neg hcond]
      have hInv2 : NearestInv f (seen ++ [r]) closest mc := by
        rcases hInv with ⟨hc, hmc, hall⟩ | ⟨p0, hp0mem, hc, hmc, hlt, hstrict, hmin⟩
        · refine Or.inl ⟨hc, hmc, ?_⟩
          intro p hp
          rcases List.mem_append.mp hp with hp1 | hp1
          · exact hall p hp1
          · rw [List.mem_singleton.mp hp1]
            by_contra hcon
            push_neg at hcon
            exact hcond ⟨by rw [hmc]; exact_mod_cast WithTop.coe_lt_top _, hcon⟩
        · refine Or.inr ⟨p0, List.mem_append_left _ hp0mem, hc, hmc, hlt, ?_, ?_⟩
          · intro q hq hqlt
            rcases List.mem_append.mp hq with hq1 | hq1
            · exact hstrict q hq1 hqlt
            · rw [List.mem_singleton.mp hq1] at hqlt
              exact absurd hqlt (not_lt.mpr (le_of_lt (hord p0 hp0mem r (List.mem_cons_self _ _))))
          · intro q hq
            rcases List.mem_append.mp hq with hq1 | hq1
            · exact hmin q hq1
            · rw [List.mem_singleton.mp hq1]
              rcases not_and_or.mp hcond with h1 | h1
              · rw [hmc] at h1
                have := not_lt.mp h1
                exact_mod_cast this
              · exact le_of_lt (lt_of_lt_of_le hlt (not_lt.mp h1))
      have := ih hpair2 (seen ++ [r]) _ _ hInv2 hord2
      simpa [List.append_assoc] using this

/-- The guard of the nearestString useMemo passes for an active display and a
positive detected frequency. -/
theorem nearestString_pos (f : ℝ) (hf : 0 < f) :
    nearestString (some f) true = nearestLoop f STANDARD_TUNING.enum none ⊤ := by
  show (if true = false ∨ f = 0 ∨ f ≤ 0 then none
    else nearestLoop f STANDARD_TUNING.enum none ⊤) = _
  rw [if_neg]
  push_neg
  exact ⟨by simp, ne_of_gt hf, hf⟩

/-- Claim C9, counterexample: at the positive frequency 82.41 * 2 ^ (-1/6),
which is exactly 200 cents below the low E entry, nearestString returns none
although the minimum distance does not exceed the 200 cent threshold (the
loop requires the distance to be strictly below the threshold). -/
theorem C9_counterexample :
    nearestString (some (82.41 * (2 : ℝ) ^ (-((1 : ℝ) / 6)))) true = none ∧
    ∃ e ∈ STANDARD_TUNING,
      |centsOff (82.41 * (2 : ℝ) ^ (-((1 : ℝ) / 6))) e.freq| ≤ STRING_MATCH_THRESHOLD := by
  have hp : (0 : ℝ) < 2 ^ (-((1 : ℝ) / 6)) := Real.rpow_pos_of_pos (by norm_num) _
  set f0 : ℝ := 82.41 * (2 : ℝ) ^ (-((1 : ℝ) / 6)) with hf0
  have hf0pos : 0 < f0 := by rw [hf0]; positivity
  have hfirst : centsOff f0 (82.41 : ℝ) = -200 := by
    unfold centsOff
    rw [hf0, mul_div_cancel_left₀ _ (by norm_num : (82.41 : ℝ) ≠ 0)]
    rw [Real.logb_rpow (by norm_num) (by norm_num)]
    norm_num
  have hothers : ∀ t : ℝ, 82.41 ≤ t → 0 < t → centsOff f0 t ≤ -200 := by
    intro t ht htpos
    have hfrac : f0 / t ≤ 2 ^ (-((1 : ℝ) / 6)) := by
      rw [hf0]
      have h1 : (82.41 : ℝ) / t ≤ 1 := (div_le_one htpos).mpr ht
      calc 82.41 * (2 : ℝ) ^ (-((1 : ℝ) / 6)) / t
          = (82.41 / t) * (2 : ℝ) ^ (-((1 : ℝ) / 6)) := by ring
        _ ≤ 1 * (2 : ℝ) ^ (-((1 : ℝ) / 6)) := mul_le_mul_of_nonneg_right h1 (le_of_lt hp)
        _ = (2 : ℝ) ^ (-((1 : ℝ) / 6)) := one_mul _
    have hlogle : Real.logb 2 (f0 / t) ≤ -((1 : ℝ) / 6) := by
      have hpos2 : 0 < f0 / t := div_pos hf0pos htpos
      rw [Real.logb_le_iff_le_rpow (by norm_num : (1 : ℝ) < 2) hpos2]
      exact hfrac
    unfold centsOff
    linarith
  have habs : ∀ t : ℝ, 82.41 ≤ t → 0 < t →
      ¬ (|centsOff f0 t| < STRING_MATCH_THRESHOLD) := by
    intro t ht htpos
    have h := hothers t ht htpos
    rw [not_lt, abs_of_nonpos (by linarith)]
    show (200 : ℝ) ≤ -centsOff f0 t
    linarith
  constructor
  · rw [nearestString_pos _ hf0pos]
    apply nearestLoop_none
    intro p hp2
    fin_cases hp2 <;>
      first
        | exact habs 82.41 (by norm_num) (by norm_num)
        | exact habs 110.0 (by norm_num) (by norm_num)
        | exact habs 146.83 (by norm_num) (by norm_num)
        | exact habs 196.0 (by norm_num) (by norm_num)
        | exact habs 246.94 (by norm_num) (by norm_num)
        | exact habs 329.63 (by norm_num) (by norm_num)
  · refine ⟨⟨6, ("E"), 82.41, ("Low E")⟩, by simp [STANDARD_TUNING], ?_⟩
    show |centsOff f0 (82.41 : ℝ)| ≤ STRING_MATCH_THRESHOLD
    rw [hfirst, abs_of_nonpos (by norm_num)]
    norm_num [STRING_MATCH_THRESHOLD]

/-- Claim C9, amended: for every positive frequency, the nearestString match
over the standard tuning table picks the entry minimizing the absolute cents
distance, resolves ties by table order (an entry wins against every earlier
index strictly), reports the rounded cents offset, returns none exactly when
every entry is at least (rather than strictly more than) 200 cents away, and
a frequency exactly equal to the target of a string returns that string with
0 cents. -/
theorem C9_nearest_string (f : ℝ) (hf : 0 < f)
    (hpos : ∀ e ∈ STANDARD_TUNING, 0 < e.freq)
    (hinj : ∀ i j : ℕ, ∀ ei ej : StringEntry, STANDARD_TUNING[i]? = some ei →
      STANDARD_TUNING[j]? = some ej → ei.freq = ej.freq → i = j) :
    ((nearestString (some f) true = none) ↔
      ∀ e ∈ STANDARD_TUNING, STRING_MATCH_THRESHOLD ≤ |centsOff f e.freq|) ∧
    (∀ m : NearestMatch, nearestString (some f) true = some m →
      STANDARD_TUNING[m.index]? = some m.entry ∧
      m.cents = round (centsOff f m.entry.freq) ∧
      |centsOff f m.entry.freq| < STRING_MATCH_THRESHOLD ∧
      (∀ e ∈ STANDARD_TUNING, |centsOff f m.entry.freq| ≤ |centsOff f e.freq|) ∧
      (∀ j e, STANDARD_TUNING[j]? = some e → j < m.index →
        |centsOff f m.entry.freq| < |centsOff f e.freq|)) ∧
    (∀ i e, STANDARD_TUNING[i]? = some e → f = e.freq →
      nearestString (some f) true = some ⟨i, e, 0⟩) := by
  rw [nearestString_pos f hf]
  have hpair : List.Pairwise (fun a b : ℕ × StringEntry => a.1 < b.1)
      STANDARD_TUNING.enum := by
    decide
  obtain ⟨mc2, hInv⟩ := nearestLoop_inv f STANDARD_TUNING.enum hpair [] none ⊤
    (Or.inl ⟨rfl, rfl, by simp⟩) (by simp)
  rw [List.nil_append] at hInv
  set res := nearestLoop f STANDARD_TUNING.enum none ⊤ with hres
  have hsome : ∀ m : NearestMatch, res = some m →
      STANDARD_TUNING[m.index]? = some m.entry ∧
      m.cents = round (centsOff f m.entry.freq) ∧
      |centsOff f m.entry.freq| < STRING_MATCH_THRESHOLD ∧
      (∀ e ∈ STANDARD_TUNING, |centsOff f m.entry.freq| ≤ |centsOff f e.freq|) ∧
      (∀ j e, STANDARD_TUNING[j]? = some e → j < m.index →
        |centsOff f m.entry.freq| < |centsOff f e.freq|) := by
    intro m hm
    rcases hInv with ⟨hc, _, _⟩ | ⟨p, hpmem, hc, _, hlt, hstrict, hmin⟩
    · rw [hm] at hc
      exact absurd hc (by simp)
    · obtain ⟨pi, pe⟩ := p
      rw [hm] at hc
      obtain rfl : m = ⟨pi, pe, round (centsOff f pe.freq)⟩ := Option.some_inj.mp hc
      have hpe : STANDARD_TUNING[pi]? = some pe := List.mk_mem_enum_iff_getElem?.mp hpmem
      refine ⟨hpe, rfl, hlt, ?_, ?_⟩
      · intro e he
        obtain ⟨j, hj⟩ := List.mem_iff_getElem?.mp he
        exact hmin (j, e) (List.mk_mem_enum_iff_getElem?.mpr hj)
      · intro j e hj hjlt
        exact hstrict (j, e) (List.mk_mem_enum_iff_getElem?.mpr hj) hjlt
  have hforward : res = none →
      ∀ e ∈ STANDARD_TUNING, STRING_MATCH_THRESHOLD ≤ |centsOff f e.freq| := by
    intro hnone e he
    rcases hInv with ⟨_, _, hall⟩ | ⟨p, hpmem, hc, _, _, _, _⟩
    · obtain ⟨j, hj⟩ := List.mem_iff_getElem?.mp he
      exact hall (j, e) (List.mk_mem_enum_iff_getElem?.mpr hj)
    · rw [hnone] at hc
      exact absurd hc (by simp)
  have hbackward :
      (∀ e ∈ STANDARD_TUNING, STRING_MATCH_THRESHOLD ≤ |centsOff f e.freq|) →
      res = none := by
    intro hall
    cases hres2 : res with
    | none => rfl
    | some m =>
      exfalso
      obtain ⟨h1, _, h3, _, _⟩ := hsome m hres2
      have hmem : m.entry ∈ STANDARD_TUNING := List.mem_iff_getElem?.mpr ⟨m.index, h1⟩
      have := hall m.entry hmem
      linarith
  refine ⟨⟨hforward, hbackward⟩, hsome, ?_⟩
  intro i e hi hfe
  have hemem : e ∈ STANDARD_TUNING := List.mem_iff_getElem?.mpr ⟨i, hi⟩
  have hzero : centsOff f e.freq = 0 := by
    unfold centsOff
    rw [hfe, div_self (ne_of_gt (hpos e hemem)), Real.logb_one]
    ring
  cases hres2 : res with
  | none =>
    exfalso
    have := hforward hres2 e hemem
    rw [hzero] at this
    norm_num [STRING_MATCH_THRESHOLD] at this
  | some m =>
    obtain ⟨h1, h2, _, h4, _⟩ := hsome m hres2
    have hmmem : m.entry ∈ STANDARD_TUNING := List.mem_iff_getElem?.mpr ⟨m.index, h1⟩
    have habs0 : |centsOff f m.entry.freq| = 0 := by
      have hle := h4 e hemem
      rw [hzero] at hle
      simp at hle
      simpa using hle
    have hc0 : centsOff f m.entry.freq = 0 := abs_eq_zero.mp habs0
    have hposm : 0 < m.entry.freq := hpos _ hmmem
    have hdivpos : 0 < f / m.entry.freq := div_pos hf hposm
    have hlogb : Real.logb 2 (f / m.entry.freq) = 0 := by
      unfold centsOff at hc0
      have h1200 : (1200 : ℝ) ≠ 0 := by norm_num
      exact (mul_eq_zero.mp hc0).resolve_left h1200
    have hone : f / m.entry.freq = 1 := by
      rcases Real.logb_eq_zero.mp hlogb with h | h | h | h | h | h
      · norm_num at h
      · norm_num at h
      · norm_num at h
      · exact absurd h (ne_of_gt hdivpos)
      · exact h
      · exact absurd h (by linarith)
    have hfeq : m.entry.freq = f := ((div_eq_one_iff_eq (ne_of_gt hposm)).mp hone).symm
    have hieq : m.index = i := hinj m.index i m.entry e h1 hi (by rw [hfeq, hfe])
    rw [hieq] at h1
    have hent : m.entry = e := Option.some_inj.mp (h1.symm.trans hi)
    have hcents : m.cents = 0 := by
      rw [h2, hc0, round_zero]
    have hm_eq : m = ⟨i, e, 0⟩ := by
      obtain ⟨mi, me, mc⟩ := m
      simp only at hieq hent hcents
      rw [hieq, hent, hcents]
    rw [hm_eq]

/-- Witness for C9_nearest_string at the concrete frequency 110 (the A
string). -/
theorem C9_nearest_string_witness :
    ((0 : ℝ) < 110 ∧ (∀ e ∈ STANDARD_TUNING, 0 < e.freq) ∧
      (∀ i j : ℕ, ∀ ei ej : StringEntry, STANDARD_TUNING[i]? = some ei →
        STANDARD_TUNING[j]? = some ej → ei.freq = ej.freq → i = j)) ∧
    (((nearestString (some (110 : ℝ)) true = none) ↔
      ∀ e ∈ STANDARD_TUNING, STRING_MATCH_THRESHOLD ≤ |centsOff 110 e.freq|) ∧
    (∀ m : NearestMatch, nearestString (some (110 : ℝ)) true = some m →
      STANDARD_TUNING[m.index]? = some m.entry ∧
      m.cents = round (centsOff 110 m.entry.freq) ∧
      |centsOff 110 m.entry.freq| < STRING_MATCH_THRESHOLD ∧
      (∀ e ∈ STANDARD_TUNING, |centsOff 110 m.entry.freq| ≤ |centsOff 110 e.freq|) ∧
      (∀ j e, STANDARD_TUNING[j]? = some e → j < m.index →
        |centsOff 110 m.entry.freq| < |centsOff 110 e.freq|)) ∧
    (∀ i e, STANDARD_TUNING[i]? = some e → (110 : ℝ) = e.freq →
      nearestString (some (110 : ℝ)) true = some ⟨i, e, 0⟩)) := by
  have h1 : (0 : ℝ) < 110 := by norm_num
  have h2 : ∀ e ∈ STANDARD_TUNING, 0 < e.freq := by
    intro e he
    fin_cases he <;> norm_num
  have h3 : ∀ i j : ℕ, ∀ ei ej : StringEntry, STANDARD_TUNING[i]? = some ei →
      STANDARD_TUNING[j]? = some ej → ei.freq = ej.freq → i = j := by
    intro i j ei ej hi hj hfeq
    have hi6 : i < 6 := by
      by_contra hcon
      push_neg at hcon
      rw [List.getElem?_eq_none (by simpa [STANDARD_TUNING] using hcon)] at hi
      exact Option.noConfusion hi
    have hj6 : j < 6 := by
      by_contra hcon
      push_neg at hcon
      rw [List.getElem?_eq_none (by simpa [STANDARD_TUNING] using hcon)] at hj
      exact Option.noConfusion hj
    interval_cases i <;> interval_cases j <;> simp_all [STANDARD_TUNING] <;>
      (subst hi; subst hj; norm_num at hfeq)
  exact ⟨⟨h1, h2, h3⟩, C9_nearest_string 110 h1 h2 h3⟩

/-- Claim C2, failing input: the same note key detected twice, at t = 0ms and
t = 16ms.  The second detection hits the buffer-match branch of the smoothing
effect, which displays the note immediately, so the key is displayed after
only 16ms of detection, although the claim requires at least 80ms of
continuous detection before a key becomes the displayed note (the source
comment states the same 80ms requirement, and lastNoteTime is written but
never read). -/
theorem C2_hold_window_failing_input :
    (runTuner [(0, some ("A4")), (16, some ("A4"))]).displayNote = some ("A4") ∧
    (16 : ℤ) - 0 < 80 := by
  constructor
  · decide
  · decide

/-- Claim C3, counterexample: starting the metronome twice in a row (the
second start while the first is still Running) leaves the scheduler timeout
armed by the first start pending alongside the new one: two schedule loops
are active, so start() does not behave as stop() followed by start(). -/
theorem C3_counterexample :
    ((metroStart (metroStart metroInit 80 4 0) 80 4 0).chains.map Chain.id = [0, 1]) ∧
    ¬ ((metroStart (metroStart metroInit 80 4 0) 80 4 0).chains.length ≤ 1) := by
  have h1 : metroStart metroInit 80 4 0 =
      ⟨0, true, some 0, 1, [⟨0, 60 / 80, 4, 0 + 1 / 10⟩], []⟩ := by
    rw [metroStart, schedulerBody, beatLoop]
    norm_num [metroInit]
  have h2 : metroStart (metroStart metroInit 80 4 0) 80 4 0 =
      ⟨0, true, some 1, 2,
        [⟨0, 60 / 80, 4, 0 + 1 / 10⟩, ⟨1, 60 / 80, 4, 0 + 1 / 10⟩], []⟩ := by
    rw [h1, metroStart, schedulerBody, beatLoop]
    norm_num
  rw [h2]
  constructor
  · rfl
  · norm_num

/-- Claim C3, amended: calling start() while the metronome is already Running
does not cancel the previously pending schedule: the old scheduler timeout
stays pending next to the new one (two schedule loops active), and a
subsequent stop() cancels only the newly armed timeout, leaving the old loop
running; only an explicit stop() before start() removes the old schedule. -/
theorem C3_start_overlap (s : MetroState) (i : ℕ) (bpm : ℚ) (m : ℕ) (t : ℚ)
    (_h1 : s.timerRef = some i) (h2 : i ∈ s.chains.map Chain.id)
    (h3 : ∀ c ∈ s.chains, c.id < s.nextTimerId) :
    i ∈ ((metroStart s bpm m t).chains.map Chain.id) ∧
    (metroStart s bpm m t).chains.length = s.chains.length + 1 ∧
    (metroStop (metroStart s bpm m t)).chains = s.chains ∧
    i ∈ ((metroStop (metroStart s bpm m t)).chains.map Chain.id) := by
  have hchains : (metroStart s bpm m t).chains =
      s.chains ++ [⟨s.nextTimerId, 60 / bpm, m,
        (beatLoop (60 / bpm) m (t + 1 / 10) (t + 1 / 10) 0 []).1⟩] := rfl
  have htimer : (metroStart s bpm m t).timerRef = some s.nextTimerId := rfl
  have hstop : (metroStop (metroStart s bpm m t)).chains = s.chains := by
    show ((metroStart s bpm m t).chains.filter fun ch => ch.id != s.nextTimerId) = s.chains
    rw [hchains, List.filter_append]
    have hnew : (List.filter (fun ch => ch.id != s.nextTimerId)
        [(⟨s.nextTimerId, 60 / bpm, m,
          (beatLoop (60 / bpm) m (t + 1 / 10) (t + 1 / 10) 0 []).1⟩ : Chain)]) = [] := by
      simp
    rw [hnew, List.append_nil]
    apply List.filter_eq_self.mpr
    intro c hc
    have := h3 c hc
    simp only [bne_iff_ne, ne_eq]
    omega
  refine ⟨?_, ?_, hstop, ?_⟩
  · rw [hchains, List.map_append]
    exact List.mem_append_left _ h2
  · rw [hchains, List.length_append]
    rfl
  · rw [hstop]
    exact h2

/-- Witness for C3_start_overlap at the state reached by one start() from the
fresh hook state. -/
theorem C3_start_overlap_witness :
    ((metroStart metroInit 80 4 0).timerRef = some 0 ∧
     0 ∈ (metroStart metroInit 80 4 0).chains.map Chain.id ∧
     (∀ c ∈ (metroStart metroInit 80 4 0).chains, c.id < (metroStart metroInit 80 4 0).nextTimerId)) ∧
    (0 ∈ ((metroStart (metroStart metroInit 80 4 0) 80 4 0).chains.map Chain.id) ∧
     (metroStart (metroStart metroInit 80 4 0) 80 4 0).chains.length =
       (metroStart metroInit 80 4 0).chains.length + 1 ∧
     (metroStop (metroStart (metroStart metroInit 80 4 0) 80 4 0)).chains =
       (metroStart metroInit 80 4 0).chains ∧
     0 ∈ ((metroStop (metroStart (metroStart metroInit 80 4 0) 80 4 0)).chains.map Chain.id)) := by
  have h1 : metroStart metroInit 80 4 0 =
      ⟨0, true, some 0, 1, [⟨0, 60 / 80, 4, 0 + 1 / 10⟩], []⟩ := by
    rw [metroStart, schedulerBody, beatLoop]
    norm_num [metroInit]
  have ha : (metroStart metroInit 80 4 0).timerRef = some 0 := by rw [h1]
  have hb : 0 ∈ (metroStart metroInit 80 4 0).chains.map Chain.id := by
    rw [h1]
    decide
  have hc : ∀ c ∈ (metroStart metroInit 80 4 0).chains,
      c.id < (metroStart metroInit 80 4 0).nextTimerId := by
    rw [h1]
    intro c hcm
    simp only [List.mem_singleton] at hcm
    rw [hcm]
    decide
  exact ⟨⟨ha, hb, hc⟩, C3_start_overlap (metroStart metroInit 80 4 0) 0 80 4 0 ha hb hc⟩

/-- Closed form of the scheduler while loop: with a positive secondsPerBeat
it emits exactly ceil ((threshold - nextBeatTime) / secondsPerBeat) beats, at
consecutive indices and at times spaced exactly secondsPerBeat apart. -/
theorem beatLoop_spec (spb : ℚ) (hs : 0 < spb) (m : ℕ) (th : ℚ) :
    ∀ (n : ℕ) (nbt : ℚ) (beat : ℕ) (acc : List BeatEvent),
      (⌈(th - nbt) / spb⌉).toNat = n →
      beatLoop spb m th nbt beat acc =
        (nbt + (n : ℚ) * spb, beat + n,
          acc ++ (List.range n).map (fun j : ℕ =>
            ⟨beat + j, decide ((beat + j) % m = 0), nbt + (j : ℚ) * spb⟩)) := by
  intro n
  induction n with
  | zero =>
    intro nbt beat acc hn
    have hle : ¬ (nbt < th) := by
      intro hlt
      have h2 : (0 : ℤ) < ⌈(th - nbt) / spb⌉ :=
        Int.ceil_pos.mpr (div_pos (sub_pos.mpr hlt) hs)
      omega
    rw [beatLoop, dif_neg (fun hcon => hle hcon.2)]
    simp
  | succ k ih =>
    intro nbt beat acc hn
    have hlt : nbt < th := by
      by_contra hcon
      push_neg at hcon
      have h2 : ⌈(th - nbt) / spb⌉ ≤ 0 := by
        rw [show (0 : ℤ) = ((0 : ℤ)) from rfl, Int.ceil_le]
        push_cast
        exact div_nonpos_of_nonpos_of_nonneg (by linarith) (le_of_lt hs)
      omega
    rw [beatLoop, dif_pos ⟨hs, hlt⟩]
    have e1 : (th - (nbt + spb)) / spb = (th - nbt) / spb - 1 := by
      field_simp
      ring
    have hn2 : (⌈(th - (nbt + spb)) / spb⌉).toNat = k := by
      rw [e1, Int.ceil_sub_one]
      omega
    rw [ih (nbt + spb) (beat + 1) _ hn2]
    simp only [Prod.mk.injEq]
    refine ⟨?_, ?_, ?_⟩
    · push_cast
      ring
    · omega
    · rw [List.range_succ_eq_map, List.map_cons, List.map_map, List.append_assoc,
        List.singleton_append]
      congr 1
      congr 1
      · simp
      · congr 1
        funext j
        have e2 : beat + 1 + j = beat + (j + 1) := by omega
        simp only [Function.comp_apply, BeatEvent.mk.injEq]
        refine ⟨by omega, by rw [e2], by push_cast; ring⟩

/-- One scheduler tick in the single-loop regime: the loop state stays
canonical and the beat counter becomes the maximum of its old value and the
number of beats whose nominal time falls below the new lookahead horizon. -/
theorem tick_single (s : MetroState) (id : ℕ) (p : ℚ) (m : ℕ) (init : ℚ)
    (hp : 0 < p) (h : SingleChain s id p m init) (now : ℚ) :
    SingleChain (tickCurrent s now) s.nextTimerId p m init ∧
    (tickCurrent s now).beatRef =
      max s.beatRef ((⌈(now + 1/10 - init) / p⌉).toNat) := by
  obtain ⟨htimer, hchains, hevents⟩ := h
  set b := s.beatRef with hb
  set n : ℕ := (⌈(now + 1/10 - (init + (b : ℚ) * p)) / p⌉).toNat with hn
  have e1 : (now + 1/10 - (init + (b : ℚ) * p)) / p = (now + 1/10 - init) / p - b := by
    field_simp
    ring
  have hmax : b + n = max b ((⌈(now + 1/10 - init) / p⌉).toNat) := by
    have hn2 : n = (⌈(now + 1/10 - init) / p⌉ - (b : ℤ)).toNat := by
      rw [hn, e1]
      rw [show ((b : ℚ)) = (((b : ℤ) : ℚ)) by push_cast; rfl]
      rw [Int.ceil_sub_int]
    omega
  have hloop := beatLoop_spec p hp m (now + 1/10) n (init + (b : ℚ) * p) b [] rfl
  have hfire : tickCurrent s now =
      schedulerBody p m (init + (b : ℚ) * p) { s with chains := [] } now := by
    simp only [tickCurrent.eq_def, htimer]
    simp only [fireChain.eq_def, hchains]
    simp [List.find?, List.filter]
    rw [htimer]
  rw [hfire]
  rw [schedulerBody, hloop]
  refine ⟨⟨?A, ?B, ?C⟩, ?D⟩
  case A => rfl
  · show ([] ++ [⟨s.nextTimerId, p, m, init + (b : ℚ) * p + (n : ℚ) * p⟩] : List Chain) =
      [⟨s.nextTimerId, p, m, init + ((b + n : ℕ) : ℚ) * p⟩]
    rw [List.nil_append]
    congr 2
    push_cast
    ring
  · show s.events ++ (List.range n).map (fun j : ℕ =>
        ⟨b + j, decide ((b + j) % m = 0), init + (b : ℚ) * p + (j : ℚ) * p⟩) =
      (List.range (b + n)).map (canonEvent m init p)
    rw [hevents, List.range_add b n, List.map_append, List.map_map]
    congr 1
    apply List.map_congr_left
    intro j _
    unfold canonEvent
    simp only [Function.comp_apply, BeatEvent.mk.injEq]
    refine ⟨trivial, trivial, by push_cast; ring⟩
  · exact hmax

/-- Running a list of ticks in the single-loop regime keeps the state
canonical; the final beat counter is the running maximum of the per-tick beat
horizons. -/
theorem runTicks_single (p : ℚ) (m : ℕ) (init : ℚ) (hp : 0 < p) :
    ∀ (ts : List ℚ) (s : MetroState) (id : ℕ), SingleChain s id p m init →
      ∃ id2, SingleChain (runTicks s ts) id2 p m init ∧
        (runTicks s ts).beatRef =
          ts.foldl (fun b t => max b ((⌈(t + 1/10 - init) / p⌉).toNat)) s.beatRef := by
  intro ts
  induction ts with
  | nil => intro s id h; exact ⟨id, h, rfl⟩
  | cons t rest ih =>
    intro s id h
    obtain ⟨h1, h2⟩ := tick_single s id p m init hp h t
    obtain ⟨id2, h3, h4⟩ := ih (tickCurrent s t) s.nextTimerId h1
    refine ⟨id2, h3, ?_⟩
    show (runTicks (tickCurrent s t) rest).beatRef = _
    rw [List.foldl_cons]
    rw [h4, h2]

/-- A foldl of maxima is bounded by any common bound of the seed and the
entries. -/
theorem foldl_max_le (g : ℚ → ℕ) :
    ∀ (l : List ℚ) (b K : ℕ), b ≤ K → (∀ t ∈ l, g t ≤ K) →
      l.foldl (fun acc t => max acc (g t)) b ≤ K := by
  intro l
  induction l with
  | nil => intro b K hb _; exact hb
  | cons t rest ih =>
    intro b K hb hl
    exact ih _ K (max_le hb (hl t (List.mem_cons_self _ _)))
      fun q hq => hl q (List.mem_cons_of_mem _ hq)

/-- A foldl of maxima dominates the image of every list element. -/
theorem le_foldl_max (g : ℚ → ℕ) :
    ∀ (l : List ℚ) (b : ℕ) (t : ℚ), t ∈ l →
      g t ≤ l.foldl (fun acc q => max acc (g q)) b := by
  have hmono : ∀ (l : List ℚ) (b : ℕ), b ≤ l.foldl (fun acc q => max acc (g q)) b := by
    intro l
    induction l with
    | nil => intro b; exact le_refl b
    | cons q rest ih =>
      intro b
      exact le_trans (le_max_left _ _) (ih (max b (g q)))
  intro l
  induction l with
  | nil => intro b t ht; exact absurd ht (List.not_mem_nil t)
  | cons q rest ih =>
    intro b t ht
    rcases List.mem_cons.mp ht with rfl | ht2
    · exact le_trans (le_max_right b (g t)) (hmono rest _)
    · exact ih _ t ht2

/-- Starting from the fresh hook state enters the single-loop regime with no
beats emitted yet. -/
theorem start_single (bpm : ℚ) (m : ℕ) (t0 : ℚ) (hbpm : 0 < bpm) :
    SingleChain (metroStart metroInit bpm m t0) 0 (60 / bpm) m (t0 + 1/10) ∧
    (metroStart metroInit bpm m t0).beatRef = 0 := by
  have hp : 0 < 60 / bpm := by positivity
  have hn : (⌈((t0 + 1/10) - (t0 + 1/10)) / (60 / bpm)⌉).toNat = 0 := by
    simp
  have hloop := beatLoop_spec (60 / bpm) hp m (t0 + 1/10) 0 (t0 + 1/10) 0 [] hn
  have hstart : metroStart metroInit bpm m t0 =
      ⟨0, true, some 0, 1,
        [⟨0, 60 / bpm, m, (t0 + 1/10) + ((0 : ℕ) : ℚ) * (60 / bpm)⟩], []⟩ := by
    rw [metroStart, schedulerBody, hloop]
    rfl
  rw [hstart]
  exact ⟨⟨rfl, rfl, rfl⟩, rfl⟩

/-- Claim C4: for every positive bpm and beatsPerMeasure and every run of the
scheduler from a fresh start whose ticks stay within T seconds of the start
and whose final tick lands exactly at T, the emitted clicks are exactly beats
0 .. N-1 with N = ceil (T * bpm / 60), at scheduled times spaced exactly
60/bpm apart (no drift in exact arithmetic); the count lies between
floor (T * bpm / 60) and ceil (T * bpm / 60), and beat i is a downbeat
exactly when i mod beatsPerMeasure = 0. -/
theorem C4_scheduler_accuracy (bpm : ℚ) (m : ℕ) (t0 T : ℚ) (ts : List ℚ)
    (hbpm : 0 < bpm) (_hm : 0 < m) (_hT : 0 ≤ T)
    (hts : ∀ t ∈ ts, t ≤ t0 + T) (hlast : (t0 + T) ∈ ts) :
    (runTicks (metroStart metroInit bpm m t0) ts).events =
      (List.range ((⌈T * bpm / 60⌉).toNat)).map
        (fun i : ℕ => ⟨i, decide (i % m = 0), (t0 + 1/10) + (i : ℚ) * (60 / bpm)⟩) ∧
    ((⌊T * bpm / 60⌋).toNat ≤ (runTicks (metroStart metroInit bpm m t0) ts).events.length ∧
      (runTicks (metroStart metroInit bpm m t0) ts).events.length ≤ (⌈T * bpm / 60⌉).toNat) ∧
    (∀ i : ℕ, i + 1 < (runTicks (metroStart metroInit bpm m t0) ts).events.length →
      ((runTicks (metroStart metroInit bpm m t0) ts).events.getD (i+1)
          ⟨0, false, 0⟩).scheduledTime -
        ((runTicks (metroStart metroInit bpm m t0) ts).events.getD i
          ⟨0, false, 0⟩).scheduledTime = 60 / bpm) ∧
    (∀ i : ℕ, i < (runTicks (metroStart metroInit bpm m t0) ts).events.length →
      ((runTicks (metroStart metroInit bpm m t0) ts).events.getD i
          ⟨0, false, 0⟩).beatIndex = i ∧
      (((runTicks (metroStart metroInit bpm m t0) ts).events.getD i
          ⟨0, false, 0⟩).isDownbeat = true ↔ i % m = 0)) := by
  have hp : 0 < 60 / bpm := by positivity
  obtain ⟨hsc, hb0⟩ := start_single bpm m t0 hbpm
  obtain ⟨id2, hsc2, hbeat⟩ :=
    runTicks_single (60 / bpm) m (t0 + 1/10) hp ts (metroStart metroInit bpm m t0) 0 hsc
  have hTdiv : T / (60 / bpm) = T * bpm / 60 := by
    rw [div_div_eq_mul_div]
  have hMlast : (⌈((t0 + T) + 1/10 - (t0 + 1/10)) / (60 / bpm)⌉).toNat =
      (⌈T * bpm / 60⌉).toNat := by
    rw [show (t0 + T) + 1/10 - (t0 + 1/10) = T by ring, hTdiv]
  have hBle : (runTicks (metroStart metroInit bpm m t0) ts).beatRef ≤
      (⌈T * bpm / 60⌉).toNat := by
    rw [hbeat, hb0]
    apply foldl_max_le
    · omega
    · intro t ht
      rw [← hMlast]
      have harg : (t + 1/10 - (t0 + 1/10)) / (60 / bpm) ≤
          ((t0 + T) + 1/10 - (t0 + 1/10)) / (60 / bpm) := by
        apply (div_le_div_iff_of_pos_right hp).mpr
        have := hts t ht
        linarith
      exact Int.toNat_le_toNat (Int.ceil_le_ceil harg)
  have hBge : (⌈T * bpm / 60⌉).toNat ≤
      (runTicks (metroStart metroInit bpm m t0) ts).beatRef := by
    rw [hbeat, hb0, ← hMlast]
    exact le_foldl_max
      (fun t => (⌈(t + 1/10 - (t0 + 1/10)) / (60 / bpm)⌉).toNat) ts 0 (t0 + T) hlast
  have hB : (runTicks (metroStart metroInit bpm m t0) ts).beatRef =
      (⌈T * bpm / 60⌉).toNat := le_antisymm hBle hBge
  have hev : (runTicks (metroStart metroInit bpm m t0) ts).events =
      (List.range ((⌈T * bpm / 60⌉).toNat)).map
        (fun i : ℕ => ⟨i, decide (i % m = 0), (t0 + 1/10) + (i : ℚ) * (60 / bpm)⟩) := by
    have h := hsc2.2.2
    rw [hB] at h
    exact h
  have hlen : (runTicks (metroStart metroInit bpm m t0) ts).events.length =
      (⌈T * bpm / 60⌉).toNat := by
    rw [hev, List.length_map, List.length_range]
  have hget : ∀ j : ℕ, j < (⌈T * bpm / 60⌉).toNat →
      (runTicks (metroStart metroInit bpm m t0) ts).events.getD j ⟨0, false, 0⟩ =
        ⟨j, decide (j % m = 0), (t0 + 1/10) + (j : ℚ) * (60 / bpm)⟩ := by
    intro j hj
    rw [hev, List.getD_eq_getElem?_getD, List.getElem?_map, List.getElem?_range hj]
    rfl
  refine ⟨hev, ⟨?_, ?_⟩, ?_, ?_⟩
  · rw [hlen]
    have := Int.floor_le_ceil (T * bpm / 60)
    omega
  · rw [hlen]
  · intro i hi
    rw [hlen] at hi
    rw [hget (i + 1) hi, hget i (by omega)]
    show ((t0 + 1/10) + ((i + 1 : ℕ) : ℚ) * (60 / bpm)) -
      ((t0 + 1/10) + (i : ℚ) * (60 / bpm)) = 60 / bpm
    push_cast
    ring
  · intro i hi
    rw [hlen] at hi
    rw [hget i hi]
    exact ⟨rfl, by simp⟩

/-- Witness for C4_scheduler_accuracy: bpm 120, 4 beats per measure, start at
clock 0, running for half a second with ticks at 1/8, 1/4, 3/8 and 1/2. -/
theorem C4_scheduler_accuracy_witness :
    ((0 : ℚ) < 120 ∧ 0 < 4 ∧ (0 : ℚ) ≤ 1/2 ∧
      (∀ t ∈ ([1/8, 1/4, 3/8, 0 + 1/2] : List ℚ), t ≤ 0 + 1/2) ∧
      ((0 : ℚ) + 1/2) ∈ ([1/8, 1/4, 3/8, 0 + 1/2] : List ℚ)) ∧
    ((runTicks (metroStart metroInit 120 4 0) [1/8, 1/4, 3/8, 0 + 1/2]).events =
      (List.range ((⌈(1/2 : ℚ) * 120 / 60⌉).toNat)).map
        (fun i : ℕ => ⟨i, decide (i % 4 = 0), ((0 : ℚ) + 1/10) + (i : ℚ) * (60 / 120)⟩) ∧
    ((⌊(1/2 : ℚ) * 120 / 60⌋).toNat ≤
        (runTicks (metroStart metroInit 120 4 0) [1/8, 1/4, 3/8, 0 + 1/2]).events.length ∧
      (runTicks (metroStart metroInit 120 4 0) [1/8, 1/4, 3/8, 0 + 1/2]).events.length ≤
        (⌈(1/2 : ℚ) * 120 / 60⌉).toNat) ∧
    (∀ i : ℕ, i + 1 <
        (runTicks (metroStart metroInit 120 4 0) [1/8, 1/4, 3/8, 0 + 1/2]).events.length →
      ((runTicks (metroStart metroInit 120 4 0) [1/8, 1/4, 3/8, 0 + 1/2]).events.getD (i+1)
          ⟨0, false, 0⟩).scheduledTime -
        ((runTicks (metroStart metroInit 120 4 0) [1/8, 1/4, 3/8, 0 + 1/2]).events.getD i
          ⟨0, false, 0⟩).scheduledTime = 60 / 120) ∧
    (∀ i : ℕ, i <
        (runTicks (metroStart metroInit 120 4 0) [1/8, 1/4, 3/8, 0 + 1/2]).events.length →
      ((runTicks (metroStart metroInit 120 4 0) [1/8, 1/4, 3/8, 0 + 1/2]).events.getD i
          ⟨0, false, 0⟩).beatIndex = i ∧
      (((runTicks (metroStart metroInit 120 4 0) [1/8, 1/4, 3/8, 0 + 1/2]).events.getD i
          ⟨0, false, 0⟩).isDownbeat = true ↔ i % 4 = 0))) := by
  have h1 : (0 : ℚ) < 120 := by norm_num
  have h2 : 0 < 4 := by norm_num
  have h3 : (0 : ℚ) ≤ 1/2 := by norm_num
  have h4 : ∀ t ∈ ([1/8, 1/4, 3/8, 0 + 1/2] : List ℚ), t ≤ 0 + 1/2 := by
    intro t ht
    fin_cases ht <;> norm_num
  have h5 : ((0 : ℚ) + 1/2) ∈ ([1/8, 1/4, 3/8, 0 + 1/2] : List ℚ) := by
    simp
  exact ⟨⟨h1, h2, h3, h4, h5⟩,
    C4_scheduler_accuracy 120 4 0 (1/2) [1/8, 1/4, 3/8, 0 + 1/2] h1 h2 h3 h4 h5⟩

/-- The volume gate of detectPitch, in real terms: it fires exactly on a zero
RMS (where the JS dBFS is -Infinity) or an RMS whose dBFS is strictly below
the threshold. -/
theorem volume_gate_iff (buffer : List ℝ) :
    jsLtB (dbFSOf buffer) (num VOLUME_THRESHOLD) = true ↔
      rmsOf buffer = 0 ∨ 20 * Real.logb 10 (rmsOf buffer) < VOLUME_THRESHOLD := by
  have h0 : 0 ≤ rmsOf buffer := Real.sqrt_nonneg _
  rcases h0.eq_or_lt with h | h
  · rw [dbFSOf, jsLog10R, if_neg (by rw [← h]; exact lt_irrefl 0), if_pos h.symm]
    show jsLtB (jsMul (num 20) negInf) (num VOLUME_THRESHOLD) = true ↔ _
    rw [show jsMul (num 20) negInf = negInf by simp [jsMul]]
    exact ⟨fun _ => Or.inl h.symm, fun _ => rfl⟩
  · rw [dbFSOf, jsLog10R, if_pos h]
    rw [jsMul_num_num, jsLtB_num_num]
    rw [decide_eq_true_iff]
    constructor
    · exact fun hlt => Or.inr hlt
    · rintro (hz | hlt)
      · exact absurd hz.symm (ne_of_lt h)
      · exact hlt

/-- The frequency gate of detectPitch, in real terms: the JS comparisons on
sampleRate / refinedPeriod accept exactly the open interval (70, 1400); a
zero refined period (frequency Infinity) and a negative refined period are
rejected, matching real division by zero being zero. -/
theorem freq_gate_iff (buffer : List ℝ) (sr : ℝ) (hsr : 0 < sr) :
    ((jsGtB (freqOf buffer sr) (num 70) && jsLtB (freqOf buffer sr) (num 1400)) = true ↔
      (70 < sr / refinedPeriodOf buffer sr ∧ sr / refinedPeriodOf buffer sr < 1400)) := by
  rw [freqOf]
  by_cases hR : refinedPeriodOf buffer sr = 0
  · rw [hR]
    rw [show jsDiv (num sr) (num 0) = posInf by simp [jsDiv, hsr, ne_of_gt hsr]]
    rw [show sr / (0 : ℝ) = 0 by simp]
    simp [jsGtB, jsLtB]
  · rw [jsDiv_num_num _ _ hR]
    rw [jsGtB, jsLtB_num_num, jsLtB_num_num]
    rw [Bool.and_eq_true, decide_eq_true_iff, decide_eq_true_iff]

/-- Claim C7, amended: detectPitch returns none exactly when the dBFS level
is below -40 (including the -Infinity dBFS of an all-zero frame), or the best
normalized autocorrelation is at most 0.85, or the derived frequency
sampleRate / refinedLag lies outside the OPEN interval (70, 1400) -- the
boundary frequencies 70 and 1400 Hz themselves are rejected; otherwise it
returns the estimate (frequency, confidence = bestCorrelation).  An all-zero
frame yields none. -/
theorem C7_detector_gating (buffer : List ℝ) (sr : ℝ) (hsr : 0 < sr) :
    (detectPitch buffer sr = none ↔
      (rmsOf buffer = 0 ∨ 20 * Real.logb 10 (rmsOf buffer) < VOLUME_THRESHOLD) ∨
      (bestOf buffer sr).1 ≤ CLARITY_THRESHOLD ∨
      sr / refinedPeriodOf buffer sr ≤ 70 ∨
      1400 ≤ sr / refinedPeriodOf buffer sr) ∧
    (∀ fq c, detectPitch buffer sr = some (fq, c) →
      c = (bestOf buffer sr).1 ∧
      fq = num (sr / refinedPeriodOf buffer sr) ∧
      CLARITY_THRESHOLD < c ∧
      70 < sr / refinedPeriodOf buffer sr ∧ sr / refinedPeriodOf buffer sr < 1400) ∧
    (∀ zbuf : List ℝ, (∀ x ∈ zbuf, x = 0) → detectPitch zbuf sr = none) := by
  have hzero : ∀ zbuf : List ℝ, (∀ x ∈ zbuf, x = 0) → detectPitch zbuf sr = none := by
    intro zbuf hzb
    have hrz : rmsOf zbuf = 0 := by
      unfold rmsOf
      have hsum : (∑ i ∈ Finset.range zbuf.length,
          sampleAt zbuf i * sampleAt zbuf i) = 0 := by
        apply Finset.sum_eq_zero
        intro i hi
        have hilen : i < zbuf.length := Finset.mem_range.mp hi
        have hsz : sampleAt zbuf i = 0 := by
          rw [sampleAt, List.getD_eq_getElem zbuf 0 hilen]
          exact hzb _ (List.getElem_mem hilen)
        rw [hsz, mul_zero]
      rw [hsum, zero_div, Real.sqrt_zero]
    rw [detectPitch, if_pos]
    rw [volume_gate_iff]
    exact Or.inl hrz
  refine ⟨?_, ?_, hzero⟩
  · rw [detectPitch]
    by_cases hv : jsLtB (dbFSOf buffer) (num VOLUME_THRESHOLD) = true
    · rw [if_pos hv]
      simp only [true_iff]
      exact Or.inl ((volume_gate_iff buffer).mp hv)
    · rw [if_neg hv]
      by_cases hc : decide (CLARITY_THRESHOLD < (bestOf buffer sr).1) = true
      · by_cases hfq : (jsGtB (freqOf buffer sr) (num 70) &&
            jsLtB (freqOf buffer sr) (num 1400)) = true
        · rw [if_pos (by rw [hc]; simpa using hfq)]
          simp only [reduceCtorEq, false_iff]
          rw [decide_eq_true_iff] at hc
          obtain ⟨h70, h1400⟩ := (freq_gate_iff buffer sr hsr).mp hfq
          rintro (hA | hB | hC | hD)
          · exact hv ((volume_gate_iff buffer).mpr hA)
          · linarith
          · linarith
          · linarith
        · rw [if_neg (by simp only [Bool.and_eq_true] at hfq ⊢; tauto)]
          simp only [true_iff]
          right; right
          have := (freq_gate_iff buffer sr hsr).not.mp (by simpa using hfq)
          push_neg at this
          by_cases h70 : 70 < sr / refinedPeriodOf buffer sr
          · exact Or.inr (this h70)
          · exact Or.inl (not_lt.mp h70)
      · rw [if_neg (by simp only [Bool.and_eq_true] at hc ⊢; tauto)]
        simp only [true_iff]
        right; left
        rw [decide_eq_true_iff] at hc
        exact not_lt.mp hc
  · intro fq c hsome
    rw [detectPitch] at hsome
    by_cases hv : jsLtB (dbFSOf buffer) (num VOLUME_THRESHOLD) = true
    · rw [if_pos hv] at hsome
      exact absurd hsome (by simp)
    · rw [if_neg hv] at hsome
      by_cases hgate : (decide (CLARITY_THRESHOLD < (bestOf buffer sr).1) &&
          jsGtB (freqOf buffer sr) (num 70) && jsLtB (freqOf buffer sr) (num 1400)) = true
      · rw [if_pos hgate] at hsome
        obtain ⟨hfq, hcb⟩ : fq = freqOf buffer sr ∧ c = (bestOf buffer sr).1 := by
          have := Option.some_inj.mp hsome
          exact ⟨congrArg Prod.fst this.symm, congrArg Prod.snd this.symm⟩
        simp only [Bool.and_eq_true] at hgate
        obtain ⟨⟨hc, h70⟩, h1400⟩ := hgate
        have hfreq := (freq_gate_iff buffer sr hsr).mp (by rw [Bool.and_eq_true]; exact ⟨h70, h1400⟩)
        have hRne : refinedPeriodOf buffer sr ≠ 0 := by
          intro hR
          rw [hR, div_zero] at hfreq
          linarith [hfreq.1]
        refine ⟨hcb, ?_, ?_, hfreq⟩
        · rw [hfq, freqOf, jsDiv_num_num _ _ hRne]
        · rw [hcb]
          exact (decide_eq_true_iff).mp hc
      · rw [if_neg hgate] at hsome
        exact absurd hsome (by simp)

/-- Witness for C7_detector_gating at the frame [1] sampled at 44100 Hz. -/
theorem C7_detector_gating_witness :
    (0 : ℝ) < 44100 ∧
    ((detectPitch [1] 44100 = none ↔
      (rmsOf [1] = 0 ∨ 20 * Real.logb 10 (rmsOf [1]) < VOLUME_THRESHOLD) ∨
      (bestOf [1] 44100).1 ≤ CLARITY_THRESHOLD ∨
      (44100 : ℝ) / refinedPeriodOf [1] 44100 ≤ 70 ∨
      1400 ≤ (44100 : ℝ) / refinedPeriodOf [1] 44100) ∧
    (∀ fq c, detectPitch [1] 44100 = some (fq, c) →
      c = (bestOf [1] 44100).1 ∧
      fq = num ((44100 : ℝ) / refinedPeriodOf [1] 44100) ∧
      CLARITY_THRESHOLD < c ∧
      70 < (44100 : ℝ) / refinedPeriodOf [1] 44100 ∧
      (44100 : ℝ) / refinedPeriodOf [1] 44100 < 1400) ∧
    (∀ zbuf : List ℝ, (∀ x ∈ zbuf, x = 0) → detectPitch zbuf 44100 = none)) :=
  ⟨by norm_num, C7_detector_gating [1] 44100 (by norm_num)⟩

/-- Claim C7, counterexample: on the frame [1, 0, 1, 0] at sample rate 2800,
the volume gate passes (dBFS is about -3), the best normalized
autocorrelation is exactly 1 > 0.85, and the derived frequency is exactly
1400 Hz, inside the closed interval [70, 1400] the claim allows -- yet
detectPitch returns none, because the source requires frequency < 1400
strictly. -/
theorem C7_counterexample :
    detectPitch [1, 0, 1, 0] 2800 = none ∧
    freqOf [1, 0, 1, 0] 2800 = num 1400 ∧
    (bestOf [1, 0, 1, 0] 2800).1 = 1 ∧
    jsLtB (dbFSOf [1, 0, 1, 0]) (num VOLUME_THRESHOLD) = false := by
  have hmin : minPeriodOf 2800 = 2 := by
    unfold minPeriodOf
    rw [show (2800 : ℝ) / 1400 = ((2 : ℤ) : ℝ) by norm_num, Int.floor_intCast]
    rfl
  have hmaxp : maxPeriodOf 2800 = 40 := by
    unfold maxPeriodOf
    rw [show (2800 : ℝ) / 70 = ((40 : ℤ) : ℝ) by norm_num, Int.floor_intCast]
    rfl
  have hlags : lagsOf [1, 0, 1, 0] 2800 = [2, 3] := by
    unfold lagsOf
    rw [hmin, hmaxp]
    rfl
  have hcorr2 : corrAt [1, 0, 1, 0] 2 = 1 := by
    unfold corrAt
    norm_num [Finset.sum_range_succ, sampleAt, Real.sqrt_one]
  have hcorr3 : corrAt [1, 0, 1, 0] 3 = 0 := by
    unfold corrAt
    norm_num [Finset.sum_range_succ, sampleAt, Real.sqrt_zero]
  have hbest : bestOf [1, 0, 1, 0] 2800 = (1, 2) := by
    unfold bestOf
    rw [hlags]
    simp only [bestScan]
    rw [hcorr2, hcorr3]
    norm_num
  have harr1 : corrArr [1, 0, 1, 0] 2800 1 = 0 := by
    unfold corrArr
    rw [hmin, hmaxp]
    norm_num
  have harr2 : corrArr [1, 0, 1, 0] 2800 2 = 1 := by
    unfold corrArr
    rw [hmin, hmaxp]
    rw [if_pos (by norm_num)]
    exact hcorr2
  have harr3 : corrArr [1, 0, 1, 0] 2800 3 = 0 := by
    unfold corrArr
    rw [hmin, hmaxp]
    rw [if_pos (by norm_num)]
    exact hcorr3
  have href : refinedPeriodOf [1, 0, 1, 0] 2800 = 2 := by
    unfold refinedPeriodOf
    rw [hbest]
    show (if 0 < 2 ∧ 2 < [(1 : ℝ), 0, 1, 0].length - 1 then _ else _) = (2 : ℝ)
    rw [if_pos (by norm_num)]
    norm_num [harr1, harr2, harr3]
  have hfreq : freqOf [1, 0, 1, 0] 2800 = num 1400 := by
    unfold freqOf
    rw [href, jsDiv_num_num _ _ (by norm_num : (2 : ℝ) ≠ 0)]
    norm_num
  have hrms : rmsOf [1, 0, 1, 0] = Real.sqrt (1/2) := by
    unfold rmsOf
    congr 1
    norm_num [Finset.sum_range_succ, sampleAt]
  have hdb : jsLtB (dbFSOf [1, 0, 1, 0]) (num VOLUME_THRESHOLD) = false := by
    rw [dbFSOf, hrms]
    have hpos : 0 < Real.sqrt (1/2) := Real.sqrt_pos.mpr (by norm_num)
    rw [jsLog10R, if_pos hpos, jsMul_num_num, jsLtB_num_num]
    rw [decide_eq_false_iff_not, not_lt]
    have hlogb : Real.logb 10 (Real.sqrt (1/2)) = (1/2) * (- Real.logb 10 2) := by
      rw [Real.sqrt_eq_rpow]
      rw [Real.logb_rpow_eq_mul_logb_of_pos (by norm_num : (0 : ℝ) < 1/2)]
      rw [show (1/2 : ℝ) = (2 : ℝ)⁻¹ by norm_num, Real.logb_inv]
    have h2le : Real.logb 10 2 ≤ 1 := by
      have h10 : Real.logb 10 10 = 1 := Real.logb_self_eq_one (by norm_num)
      have := (Real.logb_le_logb (b := 10) (by norm_num : (1 : ℝ) < 10)
        (by norm_num : (0 : ℝ) < 2) (by norm_num : (0 : ℝ) < 10)).mpr (by norm_num)
      rw [h10] at this
      exact this
    have h2pos : 0 ≤ Real.logb 10 2 := Real.logb_nonneg (by norm_num) (by norm_num)
    rw [hlogb]
    show VOLUME_THRESHOLD ≤ 20 * ((1/2) * (- Real.logb 10 2))
    unfold VOLUME_THRESHOLD
    linarith
  refine ⟨?_, hfreq, by rw [hbest], hdb⟩
  rw [detectPitch, if_neg (by rw [hdb]; exact Bool.false_ne_true)]
  rw [if_neg]
  rw [Bool.and_eq_true, not_and]
  intro _
  rw [hfreq, jsLtB_num_num, decide_eq_true_iff]
  exact lt_irrefl _

/-- Witness for C8_zone_boundaries at cents = 5, active, with a displayed
note. -/
theorem C8_zone_boundaries_witness :
    (some ("A") ≠ (none : Option String)) ∧
    ((false = false → tuningStatus 5 false (some ("A")) = .inactive) ∧
     (false = true → (tuningStatus 5 false (some ("A")) = .inTune ↔ |(5:ℤ)| ≤ 5)) ∧
     (false = true →
       (tuningStatus 5 false (some ("A")) = .close ↔ 5 < |(5:ℤ)| ∧ |(5:ℤ)| ≤ 15)) ∧
     (false = true → (tuningStatus 5 false (some ("A")) = .off ↔ 15 < |(5:ℤ)|))) :=
  ⟨by simp, C8_zone_boundaries 5 false (some ("A")) (by simp)⟩

end FretForge
